import Mathlib

/-!
Verification of the converter core of the analiseSped repository
(internal/core/converter/service.go) against its natural-language
specification.  The Go code is shallowly embedded: pure helpers become Lean
functions on `List Char` / `String`, float64 amounts become `ℚ`, the stateful
row scanners become explicit state-passing folds, and the external
`closestmatch` library is a function parameter (`FuzzyOracle`), so theorems
quantify over every possible behaviour of that library.

Unicode scope: the inputs of the repository are decoded from ISO-8859-1, so
all character-level tables (case mapping, NFD decomposition, combining-mark
removal) are modelled on the Latin-1 fragment of Unicode, which is exact for
every reachable input of the program.
-/

attribute [local semireducible] Rat.add Rat.mul Rat.sub Rat.inv Rat.ofScientific

namespace AnaliseSped

/-- Characters matched by the Go regexp escape `\s`, which in RE2 is the ASCII
class containing tab, newline, form feed, carriage return and space. -/
def isRegexSpace (c : Char) : Bool :=
  c = ' ' || c = '\t' || c = '\n' || c = '\x0c' || c = '\r'

/-- Characters trimmed by `strings.TrimSpace` (`unicode.IsSpace`), restricted
to Latin-1: ASCII whitespace, vertical tab, NEL and no-break space. -/
def isGoSpace (c : Char) : Bool :=
  c = ' ' || c = '\t' || c = '\n' || c = '\x0b' || c = '\x0c' || c = '\r' ||
  c = '\x85' || c = '\xa0'

/-- Drop the trailing run of characters satisfying `p` (right-hand half of
`strings.TrimSpace` and `strings.TrimRight`). -/
def trimTrailing (p : Char → Bool) : List Char → List Char
  | [] => []
  | c :: rest =>
    let r := trimTrailing p rest
    if r = [] && p c then [] else c :: r

/-- `strings.TrimSpace`-style trim of both ends with respect to `p`. -/
def trimBoth (p : Char → Bool) (l : List Char) : List Char :=
  trimTrailing p (l.dropWhile p)

/-- `strings.TrimSpace` on a string. -/
def goTrimStr (s : String) : String := String.mk (trimBoth isGoSpace s.data)

/-- `strings.ToLower` restricted to Latin-1 (ASCII letters and the accented
letters U+00C0..U+00DE, multiplication sign excepted). -/
def goToLower (c : Char) : Char :=
  if 65 ≤ c.toNat ∧ c.toNat ≤ 90 then Char.ofNat (c.toNat + 32)
  else if 0xC0 ≤ c.toNat ∧ c.toNat ≤ 0xDE ∧ c.toNat ≠ 0xD7 then Char.ofNat (c.toNat + 32)
  else c

/-- `strings.ToUpper` restricted to Latin-1 (ASCII letters and the accented
letters U+00E0..U+00FE, division sign excepted; `ÿ` and `ß` map to
themselves, matching the program-relevant fragment). -/
def goToUpper (c : Char) : Char :=
  if 97 ≤ c.toNat ∧ c.toNat ≤ 122 then Char.ofNat (c.toNat - 32)
  else if 0xE0 ≤ c.toNat ∧ c.toNat ≤ 0xFE ∧ c.toNat ≠ 0xF7 then Char.ofNat (c.toNat - 32)
  else c

/-- Composition of `norm.NFD` and `transform.RemoveFunc(unicode.Mn)` on one
character, restricted to Latin-1 precomposed letters: the accented letter
decomposes into its base letter plus a combining mark, and the mark is
removed; standalone combining marks are removed; everything else (including
`Æ Ð Ø Þ ß`, which have no canonical decomposition) is unchanged. -/
def nfdStripMn (c : Char) : List Char :=
  if c.toNat < 0x80 then [c]
  else if 0x300 ≤ c.toNat ∧ c.toNat ≤ 0x36F then []
  else match c with
    | 'À' | 'Á' | 'Â' | 'Ã' | 'Ä' | 'Å' => ['A']
    | 'Ç' => ['C']
    | 'È' | 'É' | 'Ê' | 'Ë' => ['E']
    | 'Ì' | 'Í' | 'Î' | 'Ï' => ['I']
    | 'Ñ' => ['N']
    | 'Ò' | 'Ó' | 'Ô' | 'Õ' | 'Ö' => ['O']
    | 'Ù' | 'Ú' | 'Û' | 'Ü' => ['U']
    | 'Ý' => ['Y']
    | 'à' | 'á' | 'â' | 'ã' | 'ä' | 'å' => ['a']
    | 'ç' => ['c']
    | 'è' | 'é' | 'ê' | 'ë' => ['e']
    | 'ì' | 'í' | 'î' | 'ï' => ['i']
    | 'ñ' => ['n']
    | 'ò' | 'ó' | 'ô' | 'õ' | 'ö' => ['o']
    | 'ù' | 'ú' | 'û' | 'ü' => ['u']
    | 'ý' | 'ÿ' => ['y']
    | _ => [c]

/-- Characters kept verbatim by the regexp `[^A-Z0-9 ]+` replacement in
`normalizeText`: upper-case ASCII letters, ASCII digits and the space. -/
def goodChar (c : Char) : Bool :=
  if (65 ≤ c.toNat ∧ c.toNat ≤ 90) ∨ (48 ≤ c.toNat ∧ c.toNat ≤ 57) ∨ c = ' ' then true
  else false

/-- Worker for `collapseRuns`: `inRun` records whether the previous input
character belonged to the current run of `bad` characters (for which a single
space has already been emitted). -/
def collapseGo (bad : Char → Bool) : List Char → Bool → List Char
  | [], _ => []
  | c :: cs, inRun =>
    if bad c then
      if inRun then collapseGo bad cs true
      else ' ' :: collapseGo bad cs true
    else c :: collapseGo bad cs false

/-- `regexp.MustCompile(class+).ReplaceAllString(s, " ")`: every maximal run
of characters satisfying `bad` is replaced by a single space. -/
def collapseRuns (bad : Char → Bool) (l : List Char) : List Char :=
  collapseGo bad l false

/-- `normalizeText` from service.go on the character list: NFD decomposition
with combining-mark removal, upper-casing, replacement of runs outside
`[A-Z0-9 ]` by one space, collapsing of whitespace runs, and a final trim. -/
def normalizeChars (l : List Char) : List Char :=
  let l1 := (l.map nfdStripMn).flatten
  let l2 := l1.map goToUpper
  let l3 := collapseRuns (fun c => !goodChar c) l2
  let l4 := collapseRuns isRegexSpace l3
  trimBoth isGoSpace l4

/-- `(svc *service) normalizeText` from service.go. -/
def normalizeText (s : String) : String := String.mk (normalizeChars s.data)

/-- One character of `sanitizeForCSV`: tab, newline and carriage return are
dropped, other control characters become a space, the rest is kept. -/
def sanitizeMapChar (c : Char) : Option Char :=
  if c = '\r' || c = '\n' || c = '\t' then none
  else if c.toNat < 32 then some ' '
  else some c

/-- `sanitizeForCSV` from service.go: trim, strip embedded control
characters, trim again. -/
def sanitizeForCSV (s : String) : String :=
  if s.data = [] then ""
  else
    let t := trimBoth isGoSpace s.data
    let b := t.filterMap sanitizeMapChar
    String.mk (trimBoth isGoSpace b)

/-- Result of the Go pair `(float64, error)` returned by `parseBRLNumber`:
`errored` is true exactly when the returned error is non-nil. -/
structure ParseResult where
  val : ℚ
  errored : Bool
deriving DecidableEq, Repr

/-- `strings.ReplaceAll(s, "R$", "")`, scanning left to right. -/
def removeRS : List Char → List Char
  | 'R' :: '$' :: rest => removeRS rest
  | c :: rest => c :: removeRS rest
  | [] => []

/-- `strings.LastIndex`-style last position of `t` in `l` (char positions,
`-1` when absent; only the relative order of the results is ever used, which
agrees with Go byte indices). -/
def lastIndexOf (t : Char) (l : List Char) : Int :=
  (l.foldl (fun (acc : Int × Int) c => (if c = t then acc.2 else acc.1, acc.2 + 1)) (-1, 0)).1

/-- Numeric value of a list of ASCII digits, most significant first. -/
def digitsVal (l : List Char) : ℚ :=
  l.foldl (fun a c => a * 10 + ((c.toNat - 48 : Nat) : ℚ)) 0

/-- Case-insensitive ASCII comparison with a lower-case pattern. -/
def eqCaseless (l : List Char) (pat : List Char) : Bool :=
  (l.map goToLower) = pat

/-- `strconv.ParseFloat(s, 64)` as an exact rational, on the decimal grammar:
optional sign, infinities and NaN (whose value is irrelevant at every call
site: the loaders discard it and the date heuristics compare it to a range
that excludes 0, the placeholder used here), or a mantissa of digits with at
most one dot (with at least one digit) and an optional decimal exponent.
Underscored and hexadecimal literals, unreachable from the call sites, are
not modelled. -/
def goParseFloat (l : List Char) : Option ℚ :=
  let (sgn, rest) : ℚ × List Char :=
    match l with
    | '+' :: r => (1, r)
    | '-' :: r => (-1, r)
    | r => (1, r)
  if eqCaseless rest "inf".data || eqCaseless rest "infinity".data ||
     eqCaseless rest "nan".data then some 0
  else
    let intPart := rest.takeWhile Char.isDigit
    let r1 := rest.dropWhile Char.isDigit
    let (fracPart, r2) : List Char × List Char :=
      match r1 with
      | '.' :: r => (r.takeWhile Char.isDigit, r.dropWhile Char.isDigit)
      | r => ([], r)
    if intPart = [] ∧ fracPart = [] then none
    else
      let mant : ℚ := digitsVal intPart + digitsVal fracPart / 10 ^ fracPart.length
      match r2 with
      | [] => some (sgn * mant)
      | e :: r3 =>
        if e = 'e' ∨ e = 'E' then
          let (esgn, r4) : Int × List Char :=
            match r3 with
            | '+' :: r => (1, r)
            | '-' :: r => (-1, r)
            | r => (1, r)
          let edig := r4.takeWhile Char.isDigit
          let r5 := r4.dropWhile Char.isDigit
          if edig = [] ∨ r5 ≠ [] then none
          else some (sgn * mant * (10 : ℚ) ^ (esgn * (digitsVal edig).num))
        else none

/-- `mathRound` from service.go: `float64(int64(val*pow ± 0.5)) / pow`; the
`int64` conversion truncates toward zero, which is `⌊·⌋` on the non-negative
branch and `⌈·⌉` on the negative branch. -/
def mathRound (val : ℚ) (precision : Nat) : ℚ :=
  let pow : ℚ := (10 : ℚ) ^ precision
  if 0 ≤ val then ((⌊val * pow + 1/2⌋ : ℤ) : ℚ) / pow
  else ((⌈val * pow - 1/2⌉ : ℤ) : ℚ) / pow

/-- Is the character an ASCII digit or a dot (the residue filter of
`parseBRLNumber`)? -/
def digitOrDot (c : Char) : Bool := c.isDigit || c = '.'

/-- The trimming, sign and separator phase of `parseBRLNumber` (everything
before the `strconv.ParseFloat` call): `none` stands for the three early
returns of `(0, nil)` on an empty residue, otherwise the sign flag and the
digit-and-dot residue are produced. -/
def parseBRLPrep (vstr : String) : Option (Bool × List Char) :=
  let s0 := trimBoth isGoSpace vstr.data
  if s0 = [] then none
  else
    let s1 := removeRS s0
    let s2 := s1.filter (fun c => !(c = ' ' || c = '\xa0'))
    let s3 := trimBoth isGoSpace s2
    if s3 = [] then none
    else
      let (neg1, s4) : Bool × List Char :=
        if s3.head? = some '(' ∧ s3.getLast? = some ')' then (true, (s3.drop 1).dropLast)
        else (false, s3)
      let (neg, s5) : Bool × List Char :=
        if s4.head? = some '-' then (true, s4.drop 1) else (neg1, s4)
      let lastDot := lastIndexOf '.' s5
      let lastComma := lastIndexOf ',' s5
      let s6 :=
        if lastComma > lastDot then
          (s5.filter (· ≠ '.')).map (fun c => if c = ',' then '.' else c)
        else if lastDot > lastComma then
          if s5.count '.' > 1 then
            let parts := s5.splitOn '.'
            parts.dropLast.flatten ++ '.' :: (parts.getLast?.getD [])
          else s5
        else
          (s5.filter (· ≠ '.')).map (fun c => if c = ',' then '.' else c)
      let s7 := s6.filter digitOrDot
      if s7 = [] then none
      else some (neg, s7)

/-- `(svc *service) parseBRLNumber` from service.go, with float64 replaced by
exact rationals: the digit residue of `parseBRLPrep` is parsed, negated when
a minus sign or parentheses were seen, and rounded to two decimals; a parse
failure is the only non-nil error and returns value 0. -/
def parseBRLNumber (vstr : String) : ParseResult :=
  match parseBRLPrep vstr with
  | none => ⟨0, false⟩
  | some (neg, s7) =>
    match goParseFloat s7 with
    | none => ⟨0, true⟩
    | some f => ⟨mathRound (if neg then -f else f) 2, false⟩

/-- `formatTwoDecimalsComma` and the inlined
`strings.Replace(fmt.Sprintf("%.2f", v), ".", ",", 1)`: two-decimal rendering
with a comma separator.  Every value reaching this function is an exact
multiple of 1/100 (amounts are produced by `mathRound _ 2` and sums thereof),
where all rounding modes of `%.2f` coincide with the one used here. -/
def formatTwoDecimalsComma (v : ℚ) : String :=
  let n : Int := if 0 ≤ v then ⌊v * 100 + 1/2⌋ else ⌈v * 100 - 1/2⌉
  let a := n.natAbs
  (if n < 0 then "-" else "") ++ toString (a / 100) ++ "," ++
    (if a % 100 < 10 then "0" ++ toString (a % 100) else toString (a % 100))

/-! ### Chart-of-accounts index and account resolution

The three Go entry structs (`accEntry`, `domain.ContaSicredi`,
`ContaEntry`) have identical shape `(code, classification, description)` and
are modelled by the single structure `AccEntry`.  Go maps keyed by the
normalized description are modelled as association lists with distinct keys
(the loaders below never create a duplicate key); Go map iteration order is
unspecified, which is harmless here because every theorem about the fuzzy
stage quantifies over the oracle. -/

/-- One chart-of-accounts entry: `accEntry` / `ContaSicredi` / `ContaEntry`. -/
structure AccEntry where
  code : String
  classif : String
  desc : String
deriving DecidableEq, Repr

/-- The description-keyed account index (`map[string][]accEntry`). -/
abbrev ContasMap := List (String × List AccEntry)

/-- Behaviour of `closestmatch.New(keys, ngrams).Closest(query)`: some member
of `keys` judged closest, or `""` for no match.  The library is external to
the repository, so resolution is verified for every such function. -/
abbrev FuzzyOracle := List String → String → String

/-- Go map read `m[k]` with presence flag. -/
def lookupMap (m : ContasMap) (k : String) : Option (List AccEntry) :=
  (m.find? (fun p => p.1 == k)).map (fun p => p.2)

/-- Go map read `m[k]` (absent key yields the nil slice). -/
def lookupEntries (m : ContasMap) (k : String) : List AccEntry :=
  (lookupMap m k).getD []

/-- The key set of the index. -/
def mapKeys (m : ContasMap) : List String := m.map (fun p => p.1)

/-- All entries stored in the index. -/
def entriesOf (m : ContasMap) : List AccEntry := (m.map (fun p => p.2)).flatten

/-- Writing a key's slice back into the map (the visible effect of
`sort.Slice` on a map-backed slice). -/
def updateMap (m : ContasMap) (k : String) (v : List AccEntry) : ContasMap :=
  m.map (fun p => if p.1 = k then (p.1, v) else p)

/-- Does the entry's classification start with one of the given
classification prefixes (`strings.HasPrefix(entry.Classif, p)`)? -/
def classifMatches (prefixes : List String) (e : AccEntry) : Bool :=
  prefixes.any (fun pre => pre.data.isPrefixOf e.classif.data)

/-- Entries surviving the classification filter. -/
def filterEntries (prefixes : List String) (es : List AccEntry) : List AccEntry :=
  es.filter (classifMatches prefixes)

/-- `len()` of the classification, as Go measures it (UTF-8 bytes). -/
def classifLen (e : AccEntry) : Nat := e.classif.utf8ByteSize

/-- Insertion step of the stable descending sort by classification length. -/
def insertByClassifLen (e : AccEntry) : List AccEntry → List AccEntry
  | [] => [e]
  | f :: fs => if classifLen f < classifLen e then e :: f :: fs else f :: insertByClassifLen e fs

/-- Result of `sort.SliceStable(entries, func(i, j) { return len(C i) > len(C j) })`
(stable insertion sort).  `matchContaSicredi` and `findContaCodigoByDescricao`
use the unstable `sort.Slice` instead; both algorithms put an entry of maximal
classification length first, and no theorem below depends on the order of
entries whose classification lengths are equal. -/
def sortByClassifLenDesc : List AccEntry → List AccEntry
  | [] => []
  | e :: es => insertByClassifLen e (sortByClassifLenDesc es)

/-- `pickBest` from `buscarContaAtolini` (identical to `pickBestEntry` in
`findContaCodigoByDescricao`): filter by classification prefixes when given,
fail when the filter removes everything, otherwise return the entry with the
longest classification. -/
def pickBest (entries : List AccEntry) (prefixes : List String) : Option AccEntry :=
  if prefixes.length > 0 then
    let filtered := filterEntries prefixes entries
    if filtered.length > 0 then (sortByClassifLenDesc filtered).head?
    else none
  else (sortByClassifLenDesc entries).head?

/-- The four named results of `matchContaSicredi` / `matchContaReceitas`. -/
structure MatchResult where
  code : String
  matchedKey : String
  matchedClass : String
  mtype : String
deriving DecidableEq, Repr

/-- The filtered view `searchEntries` built by `matchContaSicredi` /
`matchContaReceitas` when classification prefixes are given: per key, keep
the matching entries; drop keys with no survivor. -/
def filterIndexMap (m : ContasMap) (prefixes : List String) : ContasMap :=
  (m.map (fun p => (p.1, filterEntries prefixes p.2))).filter (fun p => p.2.length > 0)

/-- Exact stage of `matchContaSicredi`: look the normalized key up in the
(possibly filtered) index, sort its entries by descending classification
length, and take the first. -/
def sicrediExact (searchEntries : ContasMap) (key mtypeSuffix : String) :
    Option MatchResult :=
  match lookupMap searchEntries key with
  | some entries =>
    match sortByClassifLenDesc entries with
    | chosen :: _ => some ⟨chosen.code, key, chosen.classif, "exata" ++ mtypeSuffix⟩
    | [] => none
  | none => none

/-- Fuzzy stage of `matchContaSicredi`: ask the oracle for the closest key
and pick that key's longest-classification entry. -/
def sicrediFuzzy (closest : FuzzyOracle) (searchEntries : ContasMap)
    (searchKeys : List String) (key mtypeSuffix : String) : Option MatchResult :=
  if searchKeys.length > 0 then
    let m := closest searchKeys key
    if m ≠ "" then
      match lookupMap searchEntries m with
      | some entries =>
        match sortByClassifLenDesc entries with
        | chosen :: _ => some ⟨chosen.code, m, chosen.classif, "fuzzy" ++ mtypeSuffix⟩
        | [] => none
      | none => none
    else none
  else none

/-- `matchContaSicredi` from service.go, together with the state of the
account index after the call: without a prefix filter the Go code calls
`sort.Slice` directly on the slice stored in the map, reordering the hit
key's entry list in place; with a filter it sorts freshly allocated filtered
slices and the index is untouched.  `matchContaReceitas` is the same function
modulo the n-gram lengths hidden in the oracle. -/
def matchContaSicrediCore (closest : FuzzyOracle) (descricao : String)
    (contasEntries : ContasMap) (allKeys : List String) (classPrefixes : List String) :
    MatchResult × ContasMap :=
  let key := normalizeText descricao
  if key = "" then (⟨"999999", "", "", "nao_aplicavel"⟩, contasEntries)
  else
    let filteredQ := classPrefixes.length > 0
    let searchEntries := if filteredQ then filterIndexMap contasEntries classPrefixes else contasEntries
    let searchKeys := if filteredQ then mapKeys (filterIndexMap contasEntries classPrefixes) else allKeys
    let suffix := if filteredQ then "_filtered" else "_all"
    match sicrediExact searchEntries key suffix with
    | some r =>
      (r, if filteredQ then contasEntries
          else updateMap contasEntries key (sortByClassifLenDesc (lookupEntries contasEntries key)))
    | none =>
      match sicrediFuzzy closest searchEntries searchKeys key suffix with
      | some r =>
        (r, if filteredQ then contasEntries
            else updateMap contasEntries r.matchedKey
                   (sortByClassifLenDesc (lookupEntries contasEntries r.matchedKey)))
      | none => (⟨"999999", "", "", "nao_encontrada"⟩, contasEntries)

/-- Return value of `matchContaSicredi`. -/
def matchContaSicredi (closest : FuzzyOracle) (descricao : String)
    (contasEntries : ContasMap) (allKeys : List String) (classPrefixes : List String) :
    MatchResult :=
  (matchContaSicrediCore closest descricao contasEntries allKeys classPrefixes).1

/-- Candidate-key filtering shared by the fuzzy stages of `buscarContaAtolini`
and `findContaCodigoByDescricao`: with prefixes, keep the keys owning at least
one matching entry and fail (`none`, leading to the `"999999"` fallback) when
no key survives. -/
def atoliniFuzzyKeys (contasMap : ContasMap) (descricaoIndex : List String)
    (classPrefixes : List String) : Option (List String) :=
  if classPrefixes.length > 0 then
    let filteredKeys := descricaoIndex.filter
      (fun k => (lookupEntries contasMap k).any (classifMatches classPrefixes))
    if filteredKeys.length > 0 then some filteredKeys else none
  else some descricaoIndex

/-- The shared lookup-then-pick step of `buscarContaAtolini` (its exact
stage and the body of its fuzzy hit) and of `findContaCodigoByDescricao`
(both exact stages and `fuzzyLookup`): read the key's slice and apply
`pickBest`. -/
def exactLookup (contasMap : ContasMap) (key : String) (classPrefixes : List String) :
    Option String :=
  match lookupMap contasMap key with
  | some entries =>
    if entries.length > 0 then (pickBest entries classPrefixes).map (fun be => goTrimStr be.code)
    else none
  | none => none

/-- `buscarContaAtolini` from service.go. -/
def buscarContaAtolini (closest : FuzzyOracle) (texto : String) (contasMap : ContasMap)
    (descricaoIndex : List String) (classPrefixes : List String) : String :=
  let t := goTrimStr texto
  if t = "" then "999999"
  else
    let descNorm := normalizeText t
    match exactLookup contasMap descNorm classPrefixes with
    | some code => code
    | none =>
      match atoliniFuzzyKeys contasMap descricaoIndex classPrefixes with
      | none => "999999"
      | some candidateKeys =>
        if candidateKeys.length > 0 then
          let m := closest candidateKeys descNorm
          if m ≠ "" then (exactLookup contasMap m classPrefixes).getD "999999"
          else "999999"
        else "999999"

/-- `stripLeadingNumberPrefix` from service.go (the Lean name drops the `ix`):
remove a leading `"123 - "`, `"123: "` or `"123 "` marker.  The captured
group `(.*)$` of both regexps cannot contain a newline (RE2 `.`), in which
case the pattern fails and the input is returned unchanged. -/
def stripLeadingNumberPref (s : String) : String :=
  let l := s.data
  let l1 := l.dropWhile isRegexSpace
  let digits := l1.takeWhile Char.isDigit
  let l2 := l1.dropWhile Char.isDigit
  if digits = [] then s
  else
    let first : Option (List Char) :=
      match l2.dropWhile isRegexSpace with
      | '-' :: rest =>
        let g := rest.dropWhile isRegexSpace
        if g.all (· ≠ '\n') then some g else none
      | ':' :: rest =>
        let g := rest.dropWhile isRegexSpace
        if g.all (· ≠ '\n') then some g else none
      | _ => none
    match first with
    | some g => String.mk (trimBoth isGoSpace g)
    | none =>
      let sp := l2.takeWhile isRegexSpace
      let g := l2.dropWhile isRegexSpace
      if sp ≠ [] ∧ g.all (· ≠ '\n') then String.mk (trimBoth isGoSpace g)
      else s

/-- Shared tail of the fuzzy lookups in `findContaCodigoByDescricao`. -/
def fuzzyLookup (contasMap : ContasMap) (classPrefixes : List String) (m : String) :
    Option String :=
  if m ≠ "" then exactLookup contasMap m classPrefixes else none

/-- `findContaCodigoByDescricao` from service.go. -/
def findContaCodigoByDescricao (closest : FuzzyOracle) (descricao : String)
    (descricaoIndex : List String) (contasMap : ContasMap) (classPrefixes : List String) :
    String :=
  if goTrimStr descricao = "" then "999999"
  else
    let descNorm := normalizeText descricao
    match exactLookup contasMap descNorm classPrefixes with
    | some c => c
    | none =>
      let alt := stripLeadingNumberPref descNorm
      let stage1b : Option String :=
        if alt ≠ descNorm then exactLookup contasMap alt classPrefixes else none
      match stage1b with
      | some c => c
      | none =>
        match atoliniFuzzyKeys contasMap descricaoIndex classPrefixes with
        | none => "999999"
        | some candidateKeys =>
          if candidateKeys.length > 0 then
            match fuzzyLookup contasMap classPrefixes (closest candidateKeys descNorm) with
            | some c => c
            | none =>
              if alt ≠ descNorm then
                match fuzzyLookup contasMap classPrefixes (closest candidateKeys alt) with
                | some c => c
                | none => "999999"
              else "999999"
          else "999999"

/-! ### Chart-of-accounts loaders (per-record steps and folds) -/

/-- Append an entry to the key's slice (`m[key] = append(m[key], entry)`),
keeping first-seen key order in the association list. -/
def appendEntry (m : ContasMap) (k : String) (e : AccEntry) : ContasMap :=
  match m with
  | [] => [(k, [e])]
  | (k2, es) :: rest =>
    if k2 = k then (k2, es ++ [e]) :: rest else (k2, es) :: appendEntry rest k e

/-- One record of `loadContasSicredi` (identical to `loadContasReceitasAcisa`
and, modulo the additional empty-code skip, to `lerContasRecebimentos`):
skip records with fewer than 3 fields or a description that normalizes to
empty, otherwise append. -/
def sicrediStep (st : ContasMap × List String) (record : List String) :
    ContasMap × List String :=
  if record.length < 3 then st
  else
    let code := goTrimStr (record.getD 0 "")
    let classif := goTrimStr (record.getD 1 "")
    let desc := goTrimStr (record.getD 2 "")
    let key := normalizeText desc
    if key = "" then st
    else
      (appendEntry st.1 key ⟨code, classif, desc⟩,
       if st.2.contains key then st.2 else st.2 ++ [key])

/-- `loadContasSicredi` on already-ingested CSV records. -/
def loadContasSicredi (records : List (List String)) : ContasMap × List String :=
  records.foldl sicrediStep ([], [])

/-- `strings.TrimSuffix(rawID, ".0")`. -/
def stripSuffixDotZero (s : String) : String :=
  if ['.', '0'].isSuffixOf s.data then String.mk s.data.dropLast.dropLast else s

/-- One record of `lerPlanoContasAtolini`: additionally requires a non-empty
code token that parses as a number after dropping thousands dots and turning
a comma into a decimal point. -/
def atoliniStep (st : ContasMap × List String) (record : List String) :
    ContasMap × List String :=
  if record.length < 3 then st
  else
    let rawID := goTrimStr (record.getD 0 "")
    let classif := goTrimStr (record.getD 1 "")
    let desc := goTrimStr (record.getD 2 "")
    if desc = "" ∨ rawID = "" then st
    else
      let idForParse := (rawID.data.filter (· ≠ '.')).map (fun c => if c = ',' then '.' else c)
      if idForParse = [] then st
      else
        match goParseFloat idForParse with
        | none => st
        | some _ =>
          let id := stripSuffixDotZero rawID
          let key := normalizeText desc
          if key = "" then st
          else
            (appendEntry st.1 key ⟨id, classif, desc⟩,
             if st.2.contains key then st.2 else st.2 ++ [key])

/-- `lerPlanoContasAtolini` on already-ingested CSV records: fold the step
over the records, then pre-sort every key's slice by descending
classification length (the `sort.SliceStable` pass at the end). -/
def lerPlanoContasAtolini (records : List (List String)) : ContasMap × List String :=
  let st := records.foldl atoliniStep ([], [])
  (st.1.map (fun p => (p.1, sortByClassifLenDesc p.2)), st.2)

/-- One record of `lerContasRecebimentos`: like `sicrediStep` but records
with an empty code or description field are skipped before normalization. -/
def recebContasStep (st : ContasMap × List String) (record : List String) :
    ContasMap × List String :=
  if record.length < 3 then st
  else
    let code := goTrimStr (record.getD 0 "")
    let classif := goTrimStr (record.getD 1 "")
    let desc := goTrimStr (record.getD 2 "")
    if code = "" ∨ desc = "" then st
    else
      let key := normalizeText desc
      if key = "" then st
      else
        (appendEntry st.1 key ⟨code, classif, desc⟩,
         if st.2.contains key then st.2 else st.2 ++ [key])

/-- `lerContasRecebimentos` on already-ingested CSV records (the Go function
returns the pair the other way round). -/
def lerContasRecebimentos (records : List (List String)) : ContasMap × List String :=
  records.foldl recebContasStep ([], [])

/-! ### Calendar dates and the date heuristics

`time.Time` values reaching the converter are always whole calendar days, so
a date is a `(year, month, day)` triple; `AddDate(0, 0, 1)` on a valid date
is `addOneDay` and `Format("02/01/2006")` is `formatGoDate`. -/

/-- A calendar day as used by the converter. -/
structure GoDate where
  y : Nat
  m : Nat
  d : Nat
deriving DecidableEq, Repr

/-- Gregorian leap year (as implemented by Go `time`). -/
def isLeapYear (y : Nat) : Bool :=
  (y % 4 == 0 && y % 100 != 0) || y % 400 == 0

/-- Number of days of a month. -/
def daysInMonth (y m : Nat) : Nat :=
  if m = 2 then (if isLeapYear y then 29 else 28)
  else if m = 4 ∨ m = 6 ∨ m = 9 ∨ m = 11 then 30
  else 31

/-- `t.AddDate(0, 0, 1)` on a valid date. -/
def addOneDay (dt : GoDate) : GoDate :=
  if dt.d < daysInMonth dt.y dt.m then ⟨dt.y, dt.m, dt.d + 1⟩
  else if dt.m < 12 then ⟨dt.y, dt.m + 1, 1⟩
  else ⟨dt.y + 1, 1, 1⟩

/-- Adding `n` days. -/
def addDays (dt : GoDate) : Nat → GoDate
  | 0 => dt
  | n + 1 => addDays (addOneDay dt) n

/-- The day or month as two zero-padded digits (Go layout `02` / `01`). -/
def pad2Chars (n : Nat) : List Char :=
  if n < 10 then '0' :: (Nat.repr n).data else (Nat.repr n).data

/-- The year as four zero-padded digits (Go layout `2006`). -/
def pad4Chars (n : Nat) : List Char :=
  let s := (Nat.repr n).data
  List.replicate (4 - s.length) '0' ++ s

/-- `t.Format("02/01/2006")` as a character list. -/
def formatDateChars (dt : GoDate) : List Char :=
  pad2Chars dt.d ++ '/' :: (pad2Chars dt.m ++ '/' :: pad4Chars dt.y)

/-- `t.Format("02/01/2006")`. -/
def formatGoDate (dt : GoDate) : String := String.mk (formatDateChars dt)

/-- Exactly two digits (Go `time.Parse` with a zero-padded layout field). -/
def twoDigits (a b : Char) : Option Nat :=
  if a.isDigit ∧ b.isDigit then some ((a.toNat - 48) * 10 + (b.toNat - 48)) else none

/-- `time.Parse("02/01/2006", s)`: strict `dd/mm/yyyy` with a valid calendar
day. -/
def goParseDateDDMMYYYY (l : List Char) : Option GoDate :=
  match l with
  | [d1, d2, '/', m1, m2, '/', y1, y2, y3, y4] =>
    match twoDigits d1 d2, twoDigits m1 m2, twoDigits y1 y2, twoDigits y3 y4 with
    | some dd, some mm, some yh, some yl =>
      let yy := yh * 100 + yl
      if 1 ≤ mm ∧ mm ≤ 12 ∧ 1 ≤ dd ∧ dd ≤ daysInMonth yy mm then some ⟨yy, mm, dd⟩
      else none
    | _, _, _, _ => none
  | _ => none

/-- `time.Parse("2006-01-02", s)`: strict `yyyy-mm-dd` with a valid calendar
day. -/
def goParseDateISO (l : List Char) : Option GoDate :=
  match l with
  | [y1, y2, y3, y4, '-', m1, m2, '-', d1, d2] =>
    match twoDigits y1 y2, twoDigits y3 y4, twoDigits m1 m2, twoDigits d1 d2 with
    | some yh, some yl, some mm, some dd =>
      let yy := yh * 100 + yl
      if 1 ≤ mm ∧ mm ≤ 12 ∧ 1 ≤ dd ∧ dd ≤ daysInMonth yy mm then some ⟨yy, mm, dd⟩
      else none
    | _, _, _, _ => none
  | _ => none

/-- `excelSerialToDate` from service.go: the date part of
`1899-12-30 + serial days` (the fractional day never crosses midnight). -/
def excelSerialToDate (f : ℚ) : GoDate :=
  addDays ⟨1899, 12, 30⟩ (Int.toNat (Rat.floor f))

/-- ASCII word character of the RE2 word-boundary assertion `\b`. -/
def isWordChar (c : Char) : Bool := c.isAlphanum || c = '_'

/-- Does the head of the remainder block the trailing `\b`? -/
def headIsWordChar : List Char → Bool
  | [] => false
  | c :: _ => isWordChar c

/-- Try to match `\d{2}/\d{2}/\d{4}\b` at the head of the list. -/
def matchDate1At : List Char → Option (List Char)
  | a :: b :: '/' :: c :: d :: '/' :: e :: f :: g :: h :: rest =>
    if a.isDigit && b.isDigit && c.isDigit && d.isDigit && e.isDigit && f.isDigit &&
       g.isDigit && h.isDigit && !headIsWordChar rest then
      some [a, b, '/', c, d, '/', e, f, g, h]
    else none
  | _ => none

/-- Try to match `\d{4}-\d{2}-\d{2}\b` at the head of the list. -/
def matchDate2At : List Char → Option (List Char)
  | a :: b :: c :: d :: '-' :: e :: f :: '-' :: g :: h :: rest =>
    if a.isDigit && b.isDigit && c.isDigit && d.isDigit && e.isDigit && f.isDigit &&
       g.isDigit && h.isDigit && !headIsWordChar rest then
      some [a, b, c, d, '-', e, f, '-', g, h]
    else none
  | _ => none

/-- `regexp.FindString` for a fixed-width pattern with `\b` on both sides:
scan left to right, matching only where the preceding character (tracked in
`prevWord`) is not a word character. -/
def findPattern (att : List Char → Option (List Char)) :
    List Char → Bool → Option (List Char)
  | [], _ => none
  | c :: rest, prevWord =>
    if !prevWord then
      match att (c :: rest) with
      | some m => some m
      | none => findPattern att rest (isWordChar c)
    else findPattern att rest (isWordChar c)

/-- Is the rational inside the plausible Excel-serial window
`35000 < f < 47000` of service.go? -/
def serialInRange (f : ℚ) : Bool := 35000 < f && f < 47000

/-- One cell of `findDateInRow`: a `dd/mm/yyyy` substring is returned as
matched, a valid `yyyy-mm-dd` substring is reformatted, and a float in the
Excel-serial window is converted. -/
def findDateInCell (clean : List Char) : Option String :=
  match findPattern matchDate1At clean false with
  | some m => some (String.mk m)
  | none =>
    let viaISO : Option String :=
      match findPattern matchDate2At clean false with
      | some m =>
        match goParseDateISO m with
        | some t => some (formatGoDate t)
        | none => none
      | none => none
    match viaISO with
    | some s => some s
    | none =>
      match goParseFloat clean with
      | some f => if serialInRange f then some (formatGoDate (excelSerialToDate f)) else none
      | none => none

/-- `findDateInRow` from service.go: first cell that yields a date. -/
def findDateInRow (row : List String) : Option String :=
  row.findSome? (fun c =>
    let clean := trimBoth isGoSpace c.data
    if clean = [] then none else findDateInCell clean)

/-- `parseDateDayFirst` from service.go: strict day-first parse, then ISO on
the first ten characters, then the Excel-serial window. -/
def parseDateDayFirst (s : String) : Option String :=
  let l := trimBoth isGoSpace s.data
  if l = [] then none
  else
    match goParseDateDDMMYYYY l with
    | some t => some (formatGoDate t)
    | none =>
      let viaISO : Option String :=
        if l.length ≥ 10 then
          match goParseDateISO (l.take 10) with
          | some t => some (formatGoDate t)
          | none => none
        else none
      match viaISO with
      | some s2 => some s2
      | none =>
        match goParseFloat l with
        | some f => if serialInRange f then some (formatGoDate (excelSerialToDate f)) else none
        | none => none

/-! ### Sicredi output assembly -/

/-- `domain.Lancamento` as populated by `carregarLancamentos`: settlement
date, credit description, parsed amount, narrative. -/
structure Lancamento where
  dataLiquidacao : GoDate
  descricao : String
  valor : ℚ
  historico : String
deriving DecidableEq, Repr

/-- `domain.OutputRow` as populated by `processarGrupoSicredi`. -/
structure OutputRow where
  operacao : String
  data : String
  descricaoCredito : String
  contaCredito : String
  valor : String
  historico : String
deriving DecidableEq, Repr

/-- Sum of a group's amounts, in the accumulation order of the Go loop. -/
def somaValores (grupo : List Lancamento) : ℚ :=
  grupo.foldl (fun acc l => acc + l.valor) 0

/-- `processarGrupoSicredi` from service.go: for a non-empty settlement-date
group, one aggregate debit row dated one day after the group's date and
routed to the `"999999"` clearing account, followed by one credit row per
transaction, resolved against the payee description. -/
def processarGrupoSicredi (closest : FuzzyOracle) (grupo : List Lancamento)
    (contasEntries : ContasMap) (allKeys : List String) (classPrefixes : List String) :
    List OutputRow :=
  match grupo with
  | [] => []
  | l0 :: _ =>
    let dataLancamento := formatGoDate (addOneDay l0.dataLiquidacao)
    ⟨"D", dataLancamento, "", "999999", formatTwoDecimalsComma (somaValores grupo),
      "TÍTULOS RECEBIDOS NA DATA"⟩ ::
    grupo.map (fun l =>
      ⟨"C", dataLancamento, l.descricao,
        (matchContaSicredi closest l.descricao contasEntries allKeys classPrefixes).code,
        formatTwoDecimalsComma l.valor, l.historico⟩)

/-- The grouping loop of `montarOutputSicredi`: walk the (sorted) list,
extending the current group while the settlement date repeats and flushing
it through `processarGrupoSicredi` when the date changes. -/
def montarGo (closest : FuzzyOracle) (contasEntries : ContasMap) (allKeys : List String)
    (classPrefixes : List String) :
    List Lancamento → GoDate → List Lancamento → List OutputRow
  | [], _, group => processarGrupoSicredi closest group contasEntries allKeys classPrefixes
  | l :: ls, currentDate, group =>
    if l.dataLiquidacao = currentDate then
      montarGo closest contasEntries allKeys classPrefixes ls currentDate (group ++ [l])
    else
      processarGrupoSicredi closest group contasEntries allKeys classPrefixes ++
        montarGo closest contasEntries allKeys classPrefixes ls l.dataLiquidacao [l]

/-- `montarOutputSicredi` from service.go. -/
def montarOutputSicredi (closest : FuzzyOracle) (lancamentos : List Lancamento)
    (contasEntries : ContasMap) (allKeys : List String) (classPrefixes : List String) :
    List OutputRow :=
  match lancamentos with
  | [] => []
  | l :: _ =>
    montarGo closest contasEntries allKeys classPrefixes lancamentos l.dataLiquidacao []

/-- Maximal runs of equal settlement dates, in order. -/
def chunkByDate : List Lancamento → List (List Lancamento)
  | [] => []
  | l :: ls =>
    (l :: ls.takeWhile (fun x => x.dataLiquidacao = l.dataLiquidacao)) ::
      chunkByDate (ls.dropWhile (fun x => x.dataLiquidacao = l.dataLiquidacao))
termination_by l => l.length
decreasing_by
  simp only [List.length_cons]
  exact Nat.lt_succ_of_le (List.dropWhile_sublist _).length_le

/-! ### Atolini pagamentos extractor (block-dated historic sections) -/

/-- `getCell` from service.go: bounds-checked, trimmed cell access. -/
def getCell (row : List String) (index : Int) : String :=
  if 0 ≤ index ∧ index < (row.length : Int) then goTrimStr (row.getD index.toNat "")
  else ""

/-- `strings.Contains hay needle`. -/
def containsSub : List Char → List Char → Bool
  | [], needle => needle.isEmpty
  | c :: rest, needle => needle.isPrefixOf (c :: rest) || containsSub rest needle

/-- The `normLower` helper of `ProcessAtoliniPagamentos`. -/
def normLower (s : String) : String :=
  String.mk ((trimBoth isGoSpace s.data).map goToLower)

/-- `rowHasPrefixN`: does one of the first `n` cells, lower-cased, start with
one of the given markers? -/
def rowHasPrefixN (row : List String) (n : Nat) (markers : List String) : Bool :=
  (List.range (min n row.length)).any (fun i =>
    markers.any (fun mk => mk.data.isPrefixOf (normLower (row.getD i "")).data))

/-- `updateBlockDateIfHeader`: find a `"data de pag"` label in the first six
cells, then read a date from column J, the two columns right of the label, or
anywhere in the row.  `none` means the Go closure returned `false` and left
`blockDate` unchanged. -/
def updateBlockDateIfHeader (row : List String) : Option String :=
  match (List.range (min 6 row.length)).find?
      (fun i => containsSub (normLower (row.getD i "")).data "data de pag".data) with
  | none => none
  | some labelCol =>
    match ([9, (labelCol : Int) + 1, (labelCol : Int) + 2] : List Int).findSome?
        (fun ci => parseDateDayFirst (getCell row ci)) with
    | some d => some d
    | none => findDateInRow row

/-- `isBankish`: does the upper-cased cell contain a known bank fragment? -/
def isBankish (s : String) : Bool :=
  let u := (trimBoth isGoSpace s.data).map goToUpper
  if u.isEmpty then false
  else
    (["SICRED", "BANCO", "BRADESCO", "ITAU", "SANTAND", "CAIXA", "BB",
      "CAIXA GERAL"] : List String).any (fun h => containsSub u h.data)

/-- `pickValorStr`: first of columns I, K, L, M, J holding a non-empty,
non-`"0,00"` value that `parseBRLNumber` accepts. -/
def pickValorStr (row : List String) : String :=
  ((([8, 10, 11, 12, 9] : List Int).findSome? (fun ci =>
    let v := goTrimStr (getCell row ci)
    if v = "" ∨ v = "0,00" then none
    else if (parseBRLNumber v).errored then none
    else some v)).getD "")

/-- `pickBanco`: column T, then S, U, V, if bank-like. -/
def pickBanco (row : List String) : String :=
  if isBankish (getCell row 19) then getCell row 19
  else
    match ([18, 20, 21] : List Int).find? (fun c => isBankish (getCell row c)) with
    | some c => getCell row c
    | none => ""

/-- `extractDoc`: first trimmed cell of byte length at least 3 containing at
least three digits. -/
def extractDoc (row : List String) : String :=
  (row.findSome? (fun c0 =>
    let c := goTrimStr c0
    if c.utf8ByteSize < 3 then none
    else if 3 ≤ (c.data.filter Char.isDigit).length then some c
    else none)).getD ""

/-- The memoization key `UPPER(desc) + "|" + strings.Join(prefixes, ",")`. -/
def cacheKey (desc : String) (prefixes : List String) : String :=
  String.mk ((trimBoth isGoSpace desc.data).map goToUpper) ++ "|" ++
    String.intercalate "," prefixes

/-- Reading the resolution memo (a Go map modelled as an association list). -/
def cacheLookup (cache : List (String × String)) (k : String) : Option String :=
  (cache.find? (fun p => p.1 == k)).map (fun p => p.2)

/-- `domain.AtoliniPagamentosOutputRow` as populated by
`ProcessAtoliniPagamentos`. -/
structure AtoliniPagamentosOutputRow where
  data : String
  debito : String
  descricaoConta : String
  credito : String
  descricaoCredito : String
  valor : String
  historico : String
deriving DecidableEq, Repr

/-- The mutable locals of the `ProcessAtoliniPagamentos` row loop. -/
structure PagState where
  blockDate : String
  inHistorico : Bool
  debCache : List (String × String)
  credCache : List (String × String)
deriving Repr

/-- One iteration of the `ProcessAtoliniPagamentos` row loop. -/
def pagStep (closest : FuzzyOracle) (contasMap : ContasMap) (descricaoIndex : List String)
    (debitPrefixes creditPrefixes : List String) (st : PagState) (row : List String) :
    PagState × Option AtoliniPagamentosOutputRow :=
  match updateBlockDateIfHeader row with
  | some d => ({ st with blockDate := d }, none)
  | none =>
    if rowHasPrefixN row 3 ["histórico", "historico"] then
      ({ st with inHistorico := true }, none)
    else if rowHasPrefixN row 3 ["total do histórico", "total do historico", "total da data"] then
      ({ st with inHistorico := false }, none)
    else if !st.inHistorico ∨ st.blockDate = "" then (st, none)
    else
      let valStr := pickValorStr row
      if valStr = "" then (st, none)
      else
        let val := (parseBRLNumber valStr).val
        let descDeb := goTrimStr (getCell row 1)
        let dcol := goTrimStr (getCell row 3)
        let doc := goTrimStr (extractDoc row)
        let hist :=
          if dcol ≠ "" then descDeb ++ " NF " ++ dcol
          else if doc ≠ "" ∧ descDeb ≠ "" then descDeb ++ " NF " ++ doc
          else descDeb
        let descCred := goTrimStr (pickBanco row)
        let debResolved : String × List (String × String) :=
          if descDeb ≠ "" then
            let k := cacheKey descDeb debitPrefixes
            match cacheLookup st.debCache k with
            | some id => (id, st.debCache)
            | none =>
              let id := buscarContaAtolini closest descDeb contasMap descricaoIndex debitPrefixes
              (id, st.debCache ++ [(k, id)])
          else ("", st.debCache)
        let credResolved : String × List (String × String) :=
          if descCred ≠ "" then
            let k := cacheKey descCred creditPrefixes
            match cacheLookup st.credCache k with
            | some id => (id, st.credCache)
            | none =>
              let id := buscarContaAtolini closest descCred contasMap descricaoIndex creditPrefixes
              (id, st.credCache ++ [(k, id)])
          else ("", st.credCache)
        ({ st with debCache := debResolved.2, credCache := credResolved.2 },
         some ⟨sanitizeForCSV st.blockDate, sanitizeForCSV debResolved.1,
               sanitizeForCSV descDeb, sanitizeForCSV credResolved.1,
               sanitizeForCSV descCred, sanitizeForCSV (formatTwoDecimalsComma val),
               sanitizeForCSV hist⟩)

/-- The `ProcessAtoliniPagamentos` row loop as a fold collecting the emitted
rows. -/
def pagRun (closest : FuzzyOracle) (contasMap : ContasMap) (descricaoIndex : List String)
    (debitPrefixes creditPrefixes : List String) :
    PagState → List (List String) → PagState × List AtoliniPagamentosOutputRow
  | st, [] => (st, [])
  | st, row :: rest =>
    let p := pagStep closest contasMap descricaoIndex debitPrefixes creditPrefixes st row
    let q := pagRun closest contasMap descricaoIndex debitPrefixes creditPrefixes p.1 rest
    (q.1, p.2.toList ++ q.2)

/-- The output rows of `ProcessAtoliniPagamentos` on already-ingested rows
(the surrounding function only adds file ingestion and CSV serialization). -/
def processAtoliniPagamentosRows (closest : FuzzyOracle) (contasMap : ContasMap)
    (descricaoIndex : List String) (debitPrefixes creditPrefixes : List String)
    (rows : List (List String)) : List AtoliniPagamentosOutputRow :=
  (pagRun closest contasMap descricaoIndex debitPrefixes creditPrefixes
    ⟨"", false, [], []⟩ rows).2

/-! ### Atolini recebimentos extractor (marker-delimited payer blocks) -/

/-- `isDataMarker`: upper-cased trimmed cell starts with `"DATA:"`. -/
def isDataMarker (cell : String) : Bool :=
  if cell = "" then false
  else "DATA:".data.isPrefixOf ((trimBoth isGoSpace cell.data).map goToUpper)

/-- `isPortadorMarker`: the three Go containment checks all reduce to the
upper-cased cell containing `"PORTADOR"`. -/
def isPortadorMarker (cell : String) : Bool :=
  if cell = "" then false
  else containsSub ((trimBoth isGoSpace cell.data).map goToUpper) "PORTADOR".data

/-- The anchored transaction pattern `^\s*\d+\s*-\s+.+$` of
`recebimentoLancamentoRegex`; as RE2 `.` never matches a newline, the
whitespace block may absorb newlines but the final block may not. -/
def matchLancamento (l : List Char) : Bool :=
  let l1 := l.dropWhile isRegexSpace
  let digits := l1.takeWhile Char.isDigit
  let l2 := l1.dropWhile Char.isDigit
  if digits.isEmpty then false
  else
    match l2.dropWhile isRegexSpace with
    | '-' :: rest =>
      let w := rest.takeWhile isRegexSpace
      let rem := rest.dropWhile isRegexSpace
      if w.isEmpty then false
      else if rem.isEmpty then decide (2 ≤ w.length) && (w.getLast? != some '\n')
      else rem.all (fun c => c ≠ '\n')
    | _ => false

/-- `isLancamento` from service.go. -/
def isLancamento (cell : String) : Bool :=
  if cell = "" then false else matchLancamento cell.data

/-- `extractAfterHyphen`: the group of `^\s*\d+\s*-\s*(.*)$`, trimmed; empty
when the pattern does not match. -/
def extractAfterHyphen (cell : String) : String :=
  if cell = "" then ""
  else
    let l := cell.data
    let l1 := l.dropWhile isRegexSpace
    let digits := l1.takeWhile Char.isDigit
    let l2 := l1.dropWhile Char.isDigit
    if digits.isEmpty then ""
    else
      match l2.dropWhile isRegexSpace with
      | '-' :: rest =>
        let g := rest.dropWhile isRegexSpace
        if g.all (fun c => c ≠ '\n') then String.mk (trimBoth isGoSpace g) else ""
      | _ => ""

/-- `cleanPortadorText`: trim, strip trailing colons, strip a leading
`"PORTADOR DO PAGAMENTO"` and then a leading `"PORTADOR"`, trim again. -/
def cleanPortadorText (s : String) : String :=
  if s = "" then ""
  else
    let l := trimBoth isGoSpace s.data
    let l1 := trimTrailing (fun c => c = ':') l
    let l2 :=
      if "PORTADOR DO PAGAMENTO".data.isPrefixOf (l1.map goToUpper) then
        trimBoth isGoSpace (l1.drop 21)
      else l1
    let l3 :=
      if "PORTADOR".data.isPrefixOf (l2.map goToUpper) then
        trimBoth isGoSpace (l2.drop 8)
      else l2
    String.mk (trimBoth isGoSpace l3)

/-- `pickPortadorFromRow`: text after a colon in the marker cell itself, then
the neighbour offsets `+1 +2 -1 -2 +3 -3 +4 -4`, then columns 0..12.  The Go
`seen` set only avoids re-testing a pure predicate and cannot change the
first success. -/
def pickPortadorFromRow (row : List String) (markerIdx : Int) : String :=
  let fromMarker : Option String :=
    if 0 ≤ markerIdx ∧ markerIdx < (row.length : Int) then
      let valMarker := goTrimStr (row.getD markerIdx.toNat "")
      if valMarker ≠ "" ∧ valMarker.data.contains ':' then
        let after := (valMarker.data.dropWhile (fun c => c ≠ ':')).drop 1
        if after.isEmpty then none
        else
          let part := String.mk (trimBoth isGoSpace after)
          if part ≠ "" ∧ !isPortadorMarker part then
            let cleaned := cleanPortadorText part
            if cleaned ≠ "" then some cleaned else none
          else none
      else none
    else none
  match fromMarker with
  | some c => c
  | none =>
    let searchOrder : List Int :=
      [markerIdx + 1, markerIdx + 2, markerIdx - 1, markerIdx - 2, markerIdx + 3,
       markerIdx - 3, markerIdx + 4, markerIdx - 4] ++
        (List.range 13).map (fun i => (i : Int))
    (searchOrder.findSome? (fun idx =>
      if 0 ≤ idx ∧ idx < (row.length : Int) then
        let val := goTrimStr (row.getD idx.toNat "")
        if val = "" then none
        else if isPortadorMarker val then none
        else
          let cleaned := cleanPortadorText val
          if cleaned = "" then none else some cleaned
      else none)).getD ""

/-- `regexp.FindString` of the unanchored-tail pattern `^\s*\d+\s*-\s*.+`
used inside `findLastPortadorBefore`: the matched prefix of the cell, if
any. -/
def matchPortadorLoose (l : List Char) : Option (List Char) :=
  let l1 := l.dropWhile isRegexSpace
  let digits := l1.takeWhile Char.isDigit
  let l2 := l1.dropWhile Char.isDigit
  if digits.isEmpty then none
  else
    match l2.dropWhile isRegexSpace with
    | '-' :: rest =>
      let consumedBase := l.length - rest.length
      let w := rest.takeWhile isRegexSpace
      let rem := rest.dropWhile isRegexSpace
      if rem.isEmpty then
        let k := (w.reverse.dropWhile (fun c => c = '\n')).length
        if k = 0 then none else some (l.take (consumedBase + k))
      else
        let run := rem.takeWhile (fun c => c ≠ '\n')
        some (l.take (consumedBase + w.length + run.length))
    | _ => none

/-- The marker branch of one `findLastPortadorBefore` row: `pickPortadorFromRow`,
then the first raw-non-empty cell in the six columns right of the marker
(whose cleaned text may legitimately be empty). -/
def portadorFromMarkerRow (row : List String) : Option String :=
  match List.findIdx? isPortadorMarker row with
  | some pIdx =>
    let val := pickPortadorFromRow row (pIdx : Int)
    if val ≠ "" then some val
    else
      ((List.range 6).map (fun j => pIdx + 1 + j)).findSome? (fun j =>
        if j < row.length ∧ row.getD j "" ≠ "" then
          some (cleanPortadorText (row.getD j ""))
        else none)
  | none => none

/-- The `"NNN - name"` heuristic branch of one `findLastPortadorBefore` row:
accepted only when at most six cells of the row are non-blank. -/
def portadorFromLooseRow (row : List String) : Option String :=
  row.findSome? (fun c =>
    match matchPortadorLoose c.data with
    | some m =>
      if (row.filter (fun cc => goTrimStr cc ≠ "")).length ≤ 6 then
        some (cleanPortadorText (String.mk m))
      else none
    | none => none)

/-- Backward scan of `findLastPortadorBefore`, `steps` rows starting at row
`i` and moving up. -/
def findLastPortadorBeforeGo (sheet : List (List String)) : Nat → Nat → Option String
  | _, 0 => none
  | i, steps + 1 =>
    let row := sheet.getD i []
    match portadorFromMarkerRow row with
    | some v => some v
    | none =>
      match portadorFromLooseRow row with
      | some v => some v
      | none => if i = 0 then none else findLastPortadorBeforeGo sheet (i - 1) steps

/-- `findLastPortadorBefore(sheet, idx, lookback)` from service.go. -/
def findLastPortadorBefore (sheet : List (List String)) (idx lookback : Nat) :
    Option String :=
  if idx = 0 then none else findLastPortadorBeforeGo sheet (idx - 1) (min idx lookback)

/-- The `"data de pagamento"` header branch of one `findDateInPreviousRows`
row: strict day-first parse of column 2, then the Excel-serial window, then
any date in the row. -/
def checkDataPagRow (row : List String) : Option String :=
  match row with
  | [] => none
  | c0raw :: _ =>
    let c0 := String.mk ((trimBoth isGoSpace c0raw.data).map goToLower)
    if c0 ≠ "" ∧ containsSub c0.data "data de pagamento".data then
      if 2 < row.length then
        let dataStr := goTrimStr (row.getD 2 "")
        if dataStr ≠ "" then
          match goParseDateDDMMYYYY dataStr.data with
          | some t => some (formatGoDate t)
          | none =>
            let viaSerial : Option String :=
              match goParseFloat dataStr.data with
              | some f =>
                if serialInRange f then some (formatGoDate (excelSerialToDate f)) else none
              | none => none
            match viaSerial with
            | some d => some d
            | none => findDateInRow row
        else none
      else none
    else none

/-- Backward scan of `findDateInPreviousRows`, `steps` rows starting at row
`i` and moving up. -/
def findDateInPreviousRowsGo (sheet : List (List String)) : Nat → Nat → Option String
  | _, 0 => none
  | i, steps + 1 =>
    let row := sheet.getD i []
    match checkDataPagRow row with
    | some d => some d
    | none =>
      match findDateInRow row with
      | some d => some d
      | none => if i = 0 then none else findDateInPreviousRowsGo sheet (i - 1) steps

/-- `findDateInPreviousRows(sheet, idx, lookback)` from service.go. -/
def findDateInPreviousRows (sheet : List (List String)) (idx lookback : Nat) :
    Option String :=
  if idx = 0 then none else findDateInPreviousRowsGo sheet (idx - 1) (min idx lookback)

/-- `domain.AtoliniRecebimentosOutputRow` as populated by
`ProcessAtoliniRecebimentos`. -/
structure AtoliniRecebimentosOutputRow where
  data : String
  descricaoCredito : String
  contaCredito : String
  descricaoDebito : String
  contaDebito : String
  historico : String
  valorPrincipal : String
  juros : String
  desconto : String
  despBanco : String
  despCartorio : String
  vlLiqPago : String
deriving DecidableEq, Repr

/-- The mutable locals of the `ProcessAtoliniRecebimentos` row loop. -/
structure RecebState where
  currentData : String
  currentDescDebito : String
  currentCodDebito : String
deriving DecidableEq, Repr

/-- One of the six amount columns of a recebimentos transaction: absolute
column `c`, falling back to `lancIdx + c` when the first parse yields 0. -/
def recebValor (row : List String) (lancIdx : Nat) (c : Nat) : ℚ :=
  let v0 := (parseBRLNumber (getCell row (c : Int))).val
  if v0 = 0 then (parseBRLNumber (getCell row ((lancIdx : Int) + (c : Int)))).val else v0

/-- One iteration of the `ProcessAtoliniRecebimentos` row loop at index
`rIdx` of `rows`. -/
def recebStep (closest : FuzzyOracle) (descricaoIndex : List String) (contasMap : ContasMap)
    (debitPrefixes creditPrefixes : List String) (rows : List (List String)) (rIdx : Nat)
    (st : RecebState) (row : List String) :
    RecebState × Option AtoliniRecebimentosOutputRow :=
  match List.findIdx? isDataMarker row with
  | some dIdx =>
    let newData :=
      match parseDateDayFirst (getCell row ((dIdx : Int) + 1)) with
      | some d => d
      | none =>
        match findDateInRow row with
        | some d2 => d2
        | none =>
          match parseDateDayFirst (getCell row 2) with
          | some d3 => d3
          | none => ""
    ({ st with currentData := newData }, none)
  | none =>
    match List.findIdx? isPortadorMarker row with
    | some pIdx =>
      let descDeb0 := pickPortadorFromRow row (pIdx : Int)
      let descDeb1 :=
        if descDeb0 = "" then
          (((List.range 6).map (fun j => pIdx + 1 + j)).findSome? (fun j =>
            if j < row.length then
              let candidate := goTrimStr (row.getD j "")
              if candidate = "" then none
              else
                let cl := cleanPortadorText candidate
                if cl = "" then none else some cl
            else none)).getD ""
        else descDeb0
      let descDeb := goTrimStr descDeb1
      if descDeb = "" then
        ({ st with currentDescDebito := "", currentCodDebito := "999999" }, none)
      else
        let cod := findContaCodigoByDescricao closest descDeb descricaoIndex contasMap
          debitPrefixes
        let newCod := if cod = "" then "999999" else cod
        ({ st with currentDescDebito := descDeb, currentCodDebito := newCod }, none)
    | none =>
      match List.findIdx? isLancamento row with
      | none => (st, none)
      | some lancIdx =>
        let currentData1 :=
          if st.currentData = "" then
            match findDateInPreviousRows rows rIdx 60 with
            | some d => d
            | none => st.currentData
          else st.currentData
        let debSide : String × String :=
          if st.currentDescDebito = "" then
            match findLastPortadorBefore rows rIdx 60 with
            | some p =>
              let cod := findContaCodigoByDescricao closest p descricaoIndex contasMap
                debitPrefixes
              (p, if cod = "" then "999999" else cod)
            | none => (st.currentDescDebito, st.currentCodDebito)
          else (st.currentDescDebito, st.currentCodDebito)
        let c0 := getCell row (lancIdx : Int)
        let descCredito := stripLeadingNumberPref (extractAfterHyphen c0)
        let codCredito0 := findContaCodigoByDescricao closest descCredito descricaoIndex
          contasMap creditPrefixes
        let codCredito := if codCredito0 = "" then "999999" else codCredito0
        let c5a := if 4 < row.length then getCell row 4 else ""
        let c9a := if 9 < row.length then getCell row 9 else ""
        let c5 := if c5a = "" then getCell row ((lancIdx : Int) + 4) else c5a
        let c9 := if c9a = "" then getCell row ((lancIdx : Int) + 9) else c9a
        let hist1 :=
          (if goTrimStr c9 ≠ "" then goTrimStr c9 ++ " " else "") ++
            "CONFORME DOCUMENTO " ++ goTrimStr c5
        let hist2 := hist1 ++ (if descCredito ≠ "" then " DE " ++ descCredito else "")
        let historico := sanitizeForCSV (goTrimStr hist2)
        ({ currentData := currentData1, currentDescDebito := debSide.1,
           currentCodDebito := debSide.2 },
         some ⟨sanitizeForCSV currentData1, sanitizeForCSV descCredito,
               sanitizeForCSV codCredito, sanitizeForCSV debSide.1,
               sanitizeForCSV debSide.2, historico,
               sanitizeForCSV (formatTwoDecimalsComma (recebValor row lancIdx 12)),
               sanitizeForCSV (formatTwoDecimalsComma (recebValor row lancIdx 13)),
               sanitizeForCSV (formatTwoDecimalsComma (recebValor row lancIdx 14)),
               sanitizeForCSV (formatTwoDecimalsComma (recebValor row lancIdx 15)),
               sanitizeForCSV (formatTwoDecimalsComma (recebValor row lancIdx 16)),
               sanitizeForCSV (formatTwoDecimalsComma (recebValor row lancIdx 17))⟩)

/-- The `ProcessAtoliniRecebimentos` row loop as an indexed fold. -/
def recebRun (closest : FuzzyOracle) (descricaoIndex : List String) (contasMap : ContasMap)
    (debitPrefixes creditPrefixes : List String) (rows : List (List String)) :
    Nat → RecebState → List (List String) →
      RecebState × List AtoliniRecebimentosOutputRow
  | _, st, [] => (st, [])
  | rIdx, st, row :: rest =>
    let p := recebStep closest descricaoIndex contasMap debitPrefixes creditPrefixes rows
      rIdx st row
    let q := recebRun closest descricaoIndex contasMap debitPrefixes creditPrefixes rows
      (rIdx + 1) p.1 rest
    (q.1, p.2.toList ++ q.2)

/-- The output rows of `ProcessAtoliniRecebimentos` on already-ingested rows
(the surrounding function only adds file ingestion and CSV serialization). -/
def processAtoliniRecebimentosRows (closest : FuzzyOracle) (descricaoIndex : List String)
    (contasMap : ContasMap) (debitPrefixes creditPrefixes : List String)
    (rows : List (List String)) : List AtoliniRecebimentosOutputRow :=
  (recebRun closest descricaoIndex contasMap debitPrefixes creditPrefixes rows 0
    ⟨"", "", "999999"⟩ rows).2

/-! ### Specification-side definition and concrete fixtures -/

/-- Modelled from the spec: rounding to 2 decimal places, round half away
from zero (§4.2/§3 of the spec); compared against the implementation
`mathRound`. -/
def specRound2HalfAwayFromZero (x : ℚ) : ℚ :=
  if 0 ≤ x then ((⌊x * 100 + 1/2⌋ : ℤ) : ℚ) / 100
  else -(((⌊(-x) * 100 + 1/2⌋ : ℤ) : ℚ) / 100)

/-- An oracle that never finds a close key. -/
def oracleEmpty : FuzzyOracle := fun _ _ => ""

/-- An oracle that proposes the first candidate key. -/
def oracleHead : FuzzyOracle := fun ks _ => ks.headD ""

/-- Fixture: key `"A"` exists but only with classification `"2"`, key `"B"`
owns the only `"1"`-classified entry. -/
def cmapAB : ContasMap := [("A", [⟨"1", "2", "A"⟩]), ("B", [⟨"2", "1", "B"⟩])]

/-- Fixture: one key with a shorter-classification entry listed first. -/
def cmapK : ContasMap := [("K", [⟨"1", "1", "K"⟩, ⟨"2", "2.2", "K"⟩])]

/-- Fixture rows for the pagamentos extractor: a date header, a historic
marker, and one transaction row. -/
def pagFixtureRows : List (List String) :=
  [["data de pagamento", "", "05/01/2026"], ["histórico"],
   ["x", "FOO", "", "", "", "", "", "", "1,00"]]

/-- The row the pagamentos fixture emits. -/
def pagFixtureRow : AtoliniPagamentosOutputRow :=
  ⟨"05/01/2026", "999999", "FOO", "", "", "1,00", "FOO NF 1,00"⟩

/-- Fixture: a settlement-date group with amounts 10, 20 and 5 on
2026-01-05. -/
def grupo35 : List Lancamento :=
  [⟨⟨2026, 1, 5⟩, "A", 10, "h1"⟩, ⟨⟨2026, 1, 5⟩, "B", 20, "h2"⟩,
   ⟨⟨2026, 1, 5⟩, "C", 5, "h3"⟩]

/-! ### Proof infrastructure: runs, trims and the shape of normalized text -/

/-- No two adjacent characters of the list both satisfy `bad`. -/
def noAdj (bad : Char → Bool) : List Char → Prop
  | [] => True
  | [_] => True
  | a :: b :: t => ¬(bad a = true ∧ bad b = true) ∧ noAdj bad (b :: t)

/-- The head, if any, does not satisfy `p`. -/
def headFails (p : Char → Bool) : List Char → Prop
  | [] => True
  | c :: _ => p c = false

/-- The last element, if any, does not satisfy `p`. -/
def lastFails (p : Char → Bool) (l : List Char) : Prop :=
  match l.getLast? with
  | none => True
  | some c => p c = false



/-! ### Lemmas on runs, trims and normalization -/

theorem mem_collapseGo {bad : Char → Bool} {c : Char} :
    ∀ {l : List Char} {b : Bool}, c ∈ collapseGo bad l b → c ∈ l ∨ c = ' ' := by
  intro l
  induction l with
  | nil => intro b h; simp [collapseGo] at h
  | cons a t ih =>
    intro b h
    by_cases hb : bad a = true
    · cases b with
      | true =>
        simp only [collapseGo, hb, if_true] at h
        rcases ih h with h2 | h2
        · exact Or.inl (List.mem_cons_of_mem _ h2)
        · exact Or.inr h2
      | false =>
        simp only [collapseGo, hb, if_true] at h
        rcases List.mem_cons.1 h with h2 | h2
        · exact Or.inr h2
        · rcases ih h2 with h3 | h3
          · exact Or.inl (List.mem_cons_of_mem _ h3)
          · exact Or.inr h3
    · simp only [collapseGo, hb, if_false] at h
      rcases List.mem_cons.1 h with h2 | h2
      · exact Or.inl (h2 ▸ List.mem_cons_self _ _)
      · rcases ih h2 with h3 | h3
        · exact Or.inl (List.mem_cons_of_mem _ h3)
        · exact Or.inr h3

theorem collapseGo_good {bad : Char → Bool} {c : Char} :
    ∀ {l : List Char} {b : Bool}, c ∈ collapseGo bad l b → bad c = false ∨ c = ' ' := by
  intro l
  induction l with
  | nil => intro b h; simp [collapseGo] at h
  | cons a t ih =>
    intro b h
    by_cases hb : bad a = true
    · cases b with
      | true => simp only [collapseGo, hb, if_true] at h; exact ih h
      | false =>
        simp only [collapseGo, hb, if_true] at h
        rcases List.mem_cons.1 h with h2 | h2
        · exact Or.inr h2
        · exact ih h2
    · simp only [collapseGo, hb, if_false] at h
      rcases List.mem_cons.1 h with h2 | h2
      · subst h2; exact Or.inl (Bool.eq_false_iff.2 hb)
      · exact ih h2

theorem headFails_collapseGo_true {bad : Char → Bool} :
    ∀ (l : List Char), headFails bad (collapseGo bad l true) := by
  intro l
  induction l with
  | nil => simp [collapseGo, headFails]
  | cons a t ih =>
    by_cases hb : bad a = true
    · simpa only [collapseGo, hb, if_true] using ih
    · simp only [collapseGo, hb, if_false, headFails]
      exact Bool.eq_false_iff.2 hb

theorem noAdj_cons {bad : Char → Bool} {a : Char} {t : List Char}
    (h1 : bad a = false ∨ headFails bad t) (h2 : noAdj bad t) : noAdj bad (a :: t) := by
  cases t with
  | nil => trivial
  | cons b t2 =>
    refine ⟨?_, h2⟩
    rintro ⟨ha, hbb⟩
    rcases h1 with h1 | h1
    · rw [h1] at ha; exact Bool.false_ne_true ha
    · rw [show headFails bad (b :: t2) = (bad b = false) from rfl] at h1
      rw [h1] at hbb; exact Bool.false_ne_true hbb

theorem noAdj_collapseGo {bad : Char → Bool} :
    ∀ (l : List Char) (b : Bool), noAdj bad (collapseGo bad l b) := by
  intro l
  induction l with
  | nil => intro b; simp [collapseGo]; trivial
  | cons a t ih =>
    intro b
    by_cases hb : bad a = true
    · cases b with
      | true => simpa only [collapseGo, hb, if_true] using ih true
      | false =>
        simp only [collapseGo, hb, if_true]
        exact noAdj_cons (Or.inr (headFails_collapseGo_true t)) (ih true)
    · simp only [collapseGo, hb, if_false]
      exact noAdj_cons (Or.inl (Bool.eq_false_iff.2 hb)) (ih false)

theorem collapseGo_nop {bad : Char → Bool} :
    ∀ {l : List Char} {b : Bool}, (∀ c ∈ l, bad c = false) → collapseGo bad l b = l := by
  intro l
  induction l with
  | nil => intro b _; simp [collapseGo]
  | cons a t ih =>
    intro b h
    have ha := h a (List.mem_cons_self _ _)
    simp only [collapseGo, ha, Bool.false_eq_true, if_false]
    rw [ih (fun c hc => h c (List.mem_cons_of_mem _ hc))]

theorem noAdj_tail {bad : Char → Bool} {a : Char} {t : List Char}
    (h : noAdj bad (a :: t)) : noAdj bad t := by
  cases t with
  | nil => trivial
  | cons b t2 => exact h.2

theorem noAdj_head_of_bad {bad : Char → Bool} {a : Char} {t : List Char}
    (h : noAdj bad (a :: t)) (ha : bad a = true) : headFails bad t := by
  cases t with
  | nil => trivial
  | cons b t2 =>
    rw [show headFails bad (b :: t2) = (bad b = false) from rfl]
    cases hbb : bad b with
    | false => rfl
    | true => exact absurd ⟨ha, hbb⟩ h.1

theorem collapseGo_id {bad : Char → Bool} :
    ∀ {l : List Char}, noAdj bad l → (∀ c ∈ l, bad c = true → c = ' ') →
      collapseGo bad l false = l ∧ (headFails bad l → collapseGo bad l true = l) := by
  intro l
  induction l with
  | nil => intro _ _; simp [collapseGo]
  | cons a t ih =>
    intro hadj hsp
    have htail := ih (noAdj_tail hadj) (fun c hc h => hsp c (List.mem_cons_of_mem _ hc) h)
    by_cases hb : bad a = true
    · have hsp' := hsp a (List.mem_cons_self _ _) hb
      subst hsp'
      have hhead := noAdj_head_of_bad hadj hb
      constructor
      · simp only [collapseGo, hb, if_true, Bool.false_eq_true, if_false]
        rw [htail.2 hhead]
      · intro hf
        rw [show headFails bad (' ' :: t) = (bad ' ' = false) from rfl] at hf
        rw [hf] at hb; exact absurd hb (by simp)
    · rw [Bool.not_eq_true] at hb
      constructor
      · simp only [collapseGo, hb, Bool.false_eq_true, if_false]
        rw [htail.1]
      · intro _
        simp only [collapseGo, hb, Bool.false_eq_true, if_false]
        rw [htail.1]

theorem mem_dropWhile {p : Char → Bool} {c : Char} :
    ∀ {l : List Char}, c ∈ l.dropWhile p → c ∈ l := by
  intro l
  induction l with
  | nil => intro h; simp at h
  | cons a t ih =>
    intro h
    by_cases ha : p a = true
    · rw [List.dropWhile_cons_of_pos ha] at h
      exact List.mem_cons_of_mem _ (ih h)
    · rw [List.dropWhile_cons_of_neg ha] at h
      exact h

theorem headFails_dropWhile (p : Char → Bool) :
    ∀ (l : List Char), headFails p (l.dropWhile p) := by
  intro l
  induction l with
  | nil => simp [headFails]
  | cons a t ih =>
    by_cases ha : p a = true
    · rw [List.dropWhile_cons_of_pos ha]; exact ih
    · rw [List.dropWhile_cons_of_neg ha]
      rw [show headFails p (a :: t) = (p a = false) from rfl]
      exact Bool.not_eq_true _ ▸ ha

theorem dropWhile_id_of_headFails {p : Char → Bool} :
    ∀ {l : List Char}, headFails p l → l.dropWhile p = l := by
  intro l h
  cases l with
  | nil => rfl
  | cons a t =>
    rw [show headFails p (a :: t) = (p a = false) from rfl] at h
    exact List.dropWhile_cons_of_neg (by rw [h]; simp)

theorem trimTrailing_isPrefix (p : Char → Bool) :
    ∀ (l : List Char), trimTrailing p l <+: l := by
  intro l
  induction l with
  | nil => simp [trimTrailing]
  | cons a t ih =>
    simp only [trimTrailing]
    by_cases h : trimTrailing p t = [] ∧ p a = true
    · rw [if_pos (by simp [h.1, h.2])]
      exact List.nil_prefix
    · rw [if_neg (by simpa using h)]
      rcases ih with ⟨t2, ht⟩
      exact ⟨t2, by rw [List.cons_append, ht]⟩
theorem mem_trimTrailing {p : Char → Bool} {c : Char} {l : List Char}
    (h : c ∈ trimTrailing p l) : c ∈ l :=
  (trimTrailing_isPrefix p l).subset h

theorem noAdj_append_left {bad : Char → Bool} :
    ∀ {l t : List Char}, noAdj bad (l ++ t) → noAdj bad l := by
  intro l
  induction l with
  | nil => intro t _; trivial
  | cons a l2 ih =>
    intro t h
    cases l2 with
    | nil => trivial
    | cons b l3 =>
      rw [show noAdj bad (a :: b :: l3) = (¬(bad a = true ∧ bad b = true) ∧ noAdj bad (b :: l3)) from rfl]
      rw [List.cons_append, List.cons_append] at h
      exact ⟨h.1, ih (t := t) (by rw [List.cons_append]; exact h.2)⟩

theorem noAdj_of_isPrefix {bad : Char → Bool} {l m : List Char}
    (hp : l <+: m) (h : noAdj bad m) : noAdj bad l := by
  rcases hp with ⟨t, rfl⟩
  exact noAdj_append_left h

theorem noAdj_dropWhile {bad p : Char → Bool} :
    ∀ {l : List Char}, noAdj bad l → noAdj bad (l.dropWhile p) := by
  intro l
  induction l with
  | nil => intro h; simpa using h
  | cons a t ih =>
    intro h
    by_cases ha : p a = true
    · rw [List.dropWhile_cons_of_pos ha]
      exact ih (noAdj_tail h)
    · rw [List.dropWhile_cons_of_neg ha]
      exact h

theorem headFails_trimTrailing {p q : Char → Bool} {l : List Char}
    (h : headFails q l) : headFails q (trimTrailing p l) := by
  cases hl : trimTrailing p l with
  | nil => trivial
  | cons c t =>
    rcases trimTrailing_isPrefix p l with ⟨t2, ht⟩
    rw [hl] at ht
    cases l with
    | nil => simp at ht
    | cons a l2 =>
      rw [List.cons_append] at ht
      have : c = a := by injection ht with h1 _
      subst this
      exact h

theorem lastFails_trimTrailing (p : Char → Bool) :
    ∀ (l : List Char), lastFails p (trimTrailing p l) := by
  intro l
  induction l with
  | nil => simp [trimTrailing, lastFails]
  | cons a t ih =>
    simp only [trimTrailing]
    by_cases h : trimTrailing p t = [] ∧ p a = true
    · rw [if_pos (by simp [h.1, h.2])]
      simp [lastFails]
    · rw [if_neg (by simpa using h)]
      cases hr : trimTrailing p t with
      | nil =>
        have hpa : p a = false := by
          rcases Decidable.not_and_iff_or_not.1 h with h2 | h2
          · exact absurd hr h2
          · exact Bool.not_eq_true _ ▸ h2
        simp [lastFails, hpa]
      | cons b t2 =>
        rw [show lastFails p (a :: b :: t2) = lastFails p (b :: t2) from by
          simp [lastFails, List.getLast?_cons_cons]]
        rw [← hr]
        exact ih

theorem trimTrailing_cons (p : Char → Bool) (a : Char) (t : List Char) :
    trimTrailing p (a :: t) =
      if (trimTrailing p t = [] && p a) = true then [] else a :: trimTrailing p t := rfl

theorem trimTrailing_id_of_lastFails {p : Char → Bool} :
    ∀ {l : List Char}, lastFails p l → trimTrailing p l = l := by
  intro l
  induction l with
  | nil => intro _; rfl
  | cons a t ih =>
    intro h
    cases t with
    | nil =>
      have hpa : p a = false := by simpa [lastFails] using h
      simp [trimTrailing, hpa]
    | cons b t2 =>
      have htail : lastFails p (b :: t2) := by
        simpa [lastFails, List.getLast?_cons_cons] using h
      have heq := ih htail
      rw [trimTrailing_cons, heq, if_neg (by simp)]
theorem good_cases {c : Char} (h : goodChar c = true) :
    (65 ≤ c.toNat ∧ c.toNat ≤ 90) ∨ (48 ≤ c.toNat ∧ c.toNat ≤ 57) ∨ c = ' ' := by
  by_contra hq
  simp only [goodChar, if_neg hq] at h
  exact Bool.false_ne_true h

theorem toNat_lt_128_of_good {c : Char} (h : goodChar c = true) : c.toNat < 128 := by
  rcases good_cases h with ⟨_, h2⟩ | ⟨_, h2⟩ | h2
  · omega
  · omega
  · subst h2; decide

theorem nfdStripMn_of_good {c : Char} (h : goodChar c = true) : nfdStripMn c = [c] := by
  have h128 := toNat_lt_128_of_good h
  unfold nfdStripMn
  rw [if_pos h128]

theorem goToUpper_of_good {c : Char} (h : goodChar c = true) : goToUpper c = c := by
  have h128 := toNat_lt_128_of_good h
  have h2 : ¬(97 ≤ c.toNat ∧ c.toNat ≤ 122) := by
    rcases good_cases h with ⟨ha, hb⟩ | ⟨ha, hb⟩ | hc
    · omega
    · omega
    · subst hc; decide
  have h3 : ¬(0xE0 ≤ c.toNat ∧ c.toNat ≤ 0xFE ∧ c.toNat ≠ 0xF7) := by omega
  simp [goToUpper, h2, h3]

theorem isRegexSpace_good_eq_space {c : Char} (hg : goodChar c = true)
    (hs : isRegexSpace c = true) : c = ' ' := by
  simp only [isRegexSpace, Bool.or_eq_true, decide_eq_true_eq] at hs
  rcases hs with ((((h | h) | h) | h) | h)
  · exact h
  all_goals (subst h; exact absurd hg (by decide))

theorem normalizeChars_good {x : List Char} {c : Char} (h : c ∈ normalizeChars x) :
    goodChar c = true := by
  simp only [normalizeChars, trimBoth] at h
  have h4 := mem_dropWhile (mem_trimTrailing h)
  rcases mem_collapseGo h4 with h3 | hsp
  · rcases collapseGo_good h3 with hgc | hsp2
    · simpa using hgc
    · subst hsp2; decide
  · subst hsp; decide

theorem normalizeChars_noAdj (x : List Char) : noAdj isRegexSpace (normalizeChars x) := by
  simp only [normalizeChars, trimBoth]
  exact noAdj_of_isPrefix (trimTrailing_isPrefix _ _)
    (noAdj_dropWhile (noAdj_collapseGo _ false))

theorem normalizeChars_headFails (x : List Char) :
    headFails isGoSpace (normalizeChars x) := by
  simp only [normalizeChars, trimBoth]
  exact headFails_trimTrailing (headFails_dropWhile _ _)

theorem normalizeChars_lastFails (x : List Char) :
    lastFails isGoSpace (normalizeChars x) := by
  simp only [normalizeChars, trimBoth]
  exact lastFails_trimTrailing _ _

theorem flatten_map_eq_self {f : Char → List Char} :
    ∀ {l : List Char}, (∀ c ∈ l, f c = [c]) → (l.map f).flatten = l := by
  intro l
  induction l with
  | nil => intro _; rfl
  | cons a t ih =>
    intro h
    simp only [List.map_cons, List.flatten_cons, h a (List.mem_cons_self _ _)]
    rw [ih (fun c hc => h c (List.mem_cons_of_mem _ hc))]
    rfl

theorem map_id_of {f : Char → Char} :
    ∀ {l : List Char}, (∀ c ∈ l, f c = c) → l.map f = l := by
  intro l
  induction l with
  | nil => intro _; rfl
  | cons a t ih =>
    intro h
    simp only [List.map_cons, h a (List.mem_cons_self _ _)]
    rw [ih (fun c hc => h c (List.mem_cons_of_mem _ hc))]

theorem normalizeChars_idem (x : List Char) :
    normalizeChars (normalizeChars x) = normalizeChars x := by
  have hgood : ∀ c ∈ normalizeChars x, goodChar c = true :=
    fun c hc => normalizeChars_good hc
  have e1 : ((normalizeChars x).map nfdStripMn).flatten = normalizeChars x :=
    flatten_map_eq_self (fun c hc => nfdStripMn_of_good (hgood c hc))
  have e2 : (normalizeChars x).map goToUpper = normalizeChars x :=
    map_id_of (fun c hc => goToUpper_of_good (hgood c hc))
  have e3 : collapseRuns (fun c => !goodChar c) (normalizeChars x) = normalizeChars x :=
    collapseGo_nop (fun c hc => by simp [hgood c hc])
  have e4 : collapseRuns isRegexSpace (normalizeChars x) = normalizeChars x :=
    (collapseGo_id (normalizeChars_noAdj x)
      (fun c hc hs => isRegexSpace_good_eq_space (hgood c hc) hs)).1
  have e5 : trimBoth isGoSpace (normalizeChars x) = normalizeChars x := by
    unfold trimBoth
    rw [dropWhile_id_of_headFails (normalizeChars_headFails x)]
    exact trimTrailing_id_of_lastFails (normalizeChars_lastFails x)
  conv_lhs => rw [normalizeChars]
  rw [e1, e2]
  rw [show collapseRuns (fun c => !goodChar c) (normalizeChars x) = normalizeChars x from e3]
  rw [e4, e5]
theorem parseBRLNumber_shape (s : String) :
    (parseBRLNumber s).errored = false ∨ parseBRLNumber s = ⟨0, true⟩ := by
  unfold parseBRLNumber
  rcases hp : parseBRLPrep s with _ | ⟨neg, s7⟩
  · left; rfl
  · dsimp only
    rcases hg : goParseFloat s7 with _ | f
    · right; rfl
    · left; rfl

/-- Claim C8: the text normalizer is idempotent: for every input string x,
normalize(normalize(x)) equals normalize(x). -/
theorem claim_C8_normalizeText_idempotent (s : String) :
    normalizeText (normalizeText s) = normalizeText s := by
  unfold normalizeText
  exact congrArg String.mk (normalizeChars_idem s.data)

/-- Claim C2 counterexample: `parseBRLNumber ""` returns the value 0 with a
nil error, so the empty cell is not a signaled failure as the claim
states. -/
theorem claim_C2_counterexample :
    parseBRLNumber "" = ⟨0, false⟩ ∧ ¬(parseBRLNumber "").errored = true := by
  refine ⟨by decide, by decide⟩

/-- Claim C2 (amended): empty input and digit-free input without separator
characters return value 0 with a nil error (success, treated as zero); a
digit-free residue that still contains a bare separator (such as `"."`) is
the one way to signal an error; and every signaled failure carries the value
0, so callers treating failures as zero never abort the batch. -/
theorem claim_C2_amended :
    parseBRLNumber "" = ⟨0, false⟩ ∧ parseBRLNumber "abc" = ⟨0, false⟩ ∧
    parseBRLNumber "R$ " = ⟨0, false⟩ ∧ parseBRLNumber "." = ⟨0, true⟩ ∧
    (∀ s : String, (parseBRLNumber s).errored = true → (parseBRLNumber s).val = 0) := by
  refine ⟨by decide, by decide, by decide, by decide, ?_⟩
  intro s h
  rcases parseBRLNumber_shape s with h2 | h2
  · rw [h] at h2; exact absurd h2 (by simp)
  · rw [h2]

/-- Claim C2 (amended) witness at the concrete failing input `"."`. -/
theorem claim_C2_amended_witness :
    (parseBRLNumber ".").errored = true ∧ (parseBRLNumber ".").val = 0 :=
  ⟨by decide, claim_C2_amended.2.2.2.2 "." (by decide)⟩

theorem mathRound_eq_spec (x : ℚ) : mathRound x 2 = specRound2HalfAwayFromZero x := by
  unfold mathRound specRound2HalfAwayFromZero
  by_cases h : 0 ≤ x
  · rw [if_pos h, if_pos h]
    norm_num
  · rw [if_neg h, if_neg h]
    have h1 : (⌈x * (10 : ℚ) ^ (2 : ℕ) - 1/2⌉ : ℤ) = -⌊(-x) * 100 + 1/2⌋ := by
      have h2 : ((-x) * 100 + 1/2 : ℚ) = -(x * (10 : ℚ) ^ (2 : ℕ) - 1/2) := by
        ring
      rw [h2, Int.floor_neg, neg_neg]
    rw [h1]
    push_cast
    ring_nf

/-- Claim C7: `parseBRLNumber` maps `"1.234,56"` and `"1234.56"` to 1234.56
and `"(10,00)"` to -10; the rightmost of `.` and `,` acts as the decimal
separator with the other stripped as a thousands separator (two further
instances); and the 2-decimal rounding of `mathRound` is exactly rounding
half away from zero as the spec words it. -/
theorem claim_C7_parse_and_round :
    parseBRLNumber "1.234,56" = ⟨123456/100, false⟩ ∧
    parseBRLNumber "1234.56" = ⟨123456/100, false⟩ ∧
    parseBRLNumber "(10,00)" = ⟨-10, false⟩ ∧
    parseBRLNumber "1,234.56" = ⟨123456/100, false⟩ ∧
    parseBRLNumber "1.234.567,89" = ⟨123456789/100, false⟩ ∧
    (∀ x : ℚ, mathRound x 2 = specRound2HalfAwayFromZero x) :=
  ⟨by decide, by decide, by decide, by decide, by decide, mathRound_eq_spec⟩
/-! ### Lemmas on the classification sort and candidate selection -/

theorem insertByClassifLen_ne_nil (e : AccEntry) (l : List AccEntry) :
    insertByClassifLen e l ≠ [] := by
  cases l with
  | nil => simp [insertByClassifLen]
  | cons f fs =>
    simp only [insertByClassifLen]
    split <;> simp

theorem mem_insertByClassifLen {a e : AccEntry} :
    ∀ {l : List AccEntry}, a ∈ insertByClassifLen e l ↔ a = e ∨ a ∈ l := by
  intro l
  induction l with
  | nil => simp [insertByClassifLen]
  | cons f fs ih =>
    simp only [insertByClassifLen]
    split
    · simp [or_comm, or_assoc, or_left_comm]
    · simp only [List.mem_cons, ih]
      tauto

theorem sortByClassifLenDesc_eq_nil {l : List AccEntry} :
    sortByClassifLenDesc l = [] ↔ l = [] := by
  cases l with
  | nil => simp [sortByClassifLenDesc]
  | cons e es =>
    simp only [sortByClassifLenDesc]
    constructor
    · intro h; exact absurd h (insertByClassifLen_ne_nil _ _)
    · intro h; exact absurd h (by simp)

theorem mem_sortByClassifLenDesc {a : AccEntry} :
    ∀ {l : List AccEntry}, a ∈ sortByClassifLenDesc l ↔ a ∈ l := by
  intro l
  induction l with
  | nil => simp [sortByClassifLenDesc]
  | cons e es ih =>
    simp only [sortByClassifLenDesc, mem_insertByClassifLen, ih, List.mem_cons]

theorem sortByClassifLenDesc_head :
    ∀ {l : List AccEntry} {b : AccEntry} {t : List AccEntry},
      sortByClassifLenDesc l = b :: t → b ∈ l ∧ ∀ a ∈ l, classifLen a ≤ classifLen b := by
  intro l
  induction l with
  | nil => intro b t h; simp [sortByClassifLenDesc] at h
  | cons e es ih =>
    intro b t h
    simp only [sortByClassifLenDesc] at h
    cases hs : sortByClassifLenDesc es with
    | nil =>
      rw [hs] at h
      have hes : es = [] := sortByClassifLenDesc_eq_nil.1 hs
      subst hes
      simp only [insertByClassifLen] at h
      injection h with h1 _
      subst h1
      exact ⟨List.mem_cons_self _ _, by intro a ha; simp at ha; subst ha; exact le_refl _⟩
    | cons b0 t0 =>
      rw [hs] at h
      have hIH := ih hs
      simp only [insertByClassifLen] at h
      split at h
      · next hlt =>
        injection h with h1 _
        subst h1
        refine ⟨List.mem_cons_self _ _, ?_⟩
        intro a ha
        rcases List.mem_cons.1 ha with ha | ha
        · subst ha; exact le_refl _
        · exact le_trans (hIH.2 a ha) (le_of_lt hlt)
      · next hnlt =>
        injection h with h1 _
        subst h1
        refine ⟨List.mem_cons_of_mem _ hIH.1, ?_⟩
        intro a ha
        rcases List.mem_cons.1 ha with ha | ha
        · subst ha; omega
        · exact hIH.2 a ha

theorem insertByClassifLen_perm (e : AccEntry) :
    ∀ (l : List AccEntry), (insertByClassifLen e l).Perm (e :: l) := by
  intro l
  induction l with
  | nil => simp [insertByClassifLen]
  | cons f fs ih =>
    simp only [insertByClassifLen]
    split
    · exact List.Perm.refl _
    · exact (List.Perm.cons f ih).trans (List.Perm.swap e f fs)

theorem sortByClassifLenDesc_perm :
    ∀ (l : List AccEntry), (sortByClassifLenDesc l).Perm l := by
  intro l
  induction l with
  | nil => exact List.Perm.refl _
  | cons e es ih =>
    exact (insertByClassifLen_perm e _).trans (List.Perm.cons e ih)

theorem pickBest_some {entries : List AccEntry} {P : List String} {be : AccEntry}
    (h : pickBest entries P = some be) :
    be ∈ entries ∧ (P ≠ [] → classifMatches P be = true) := by
  unfold pickBest at h
  split at h
  · next hP =>
    dsimp only at h
    split at h
    · next hlen =>
      cases hs : sortByClassifLenDesc (filterEntries P entries) with
      | nil => rw [hs] at h; simp at h
      | cons b0 t0 =>
        rw [hs] at h
        simp only [List.head?_cons, Option.some.injEq] at h
        subst h
        have hmem := (sortByClassifLenDesc_head hs).1
        have := List.mem_filter.1 hmem
        exact ⟨this.1, fun _ => this.2⟩
    · simp at h
  · next hP =>
    cases hs : sortByClassifLenDesc entries with
    | nil => rw [hs] at h; simp at h
    | cons b0 t0 =>
      rw [hs] at h
      simp only [List.head?_cons, Option.some.injEq] at h
      subst h
      refine ⟨(sortByClassifLenDesc_head hs).1, ?_⟩
      intro hne
      exact absurd (List.length_pos.2 hne) (by omega)

theorem pickBest_empty_max {entries : List AccEntry} {be : AccEntry}
    (h : pickBest entries [] = some be) :
    be ∈ entries ∧ ∀ a ∈ entries, classifLen a ≤ classifLen be := by
  unfold pickBest at h
  rw [if_neg (by simp)] at h
  cases hs : sortByClassifLenDesc entries with
  | nil => rw [hs] at h; simp at h
  | cons b0 t0 =>
    rw [hs] at h
    simp only [List.head?_cons, Option.some.injEq] at h
    subst h
    exact sortByClassifLenDesc_head hs

theorem pickBest_none_of_noMatch {entries : List AccEntry} {P : List String}
    (hP : P ≠ []) (h : ∀ e ∈ entries, classifMatches P e = false) :
    pickBest entries P = none := by
  unfold pickBest
  rw [if_pos (List.length_pos.2 hP)]
  have hf : filterEntries P entries = [] := by
    unfold filterEntries
    rw [List.filter_eq_nil_iff]
    intro e he
    rw [h e he]
    simp
  rw [hf]
  simp
/-! ### Lemmas on the account index -/

theorem mem_entriesOf_pair {m : ContasMap} {p : String × List AccEntry} {e : AccEntry}
    (hp : p ∈ m) (he : e ∈ p.2) : e ∈ entriesOf m := by
  unfold entriesOf
  exact List.mem_flatten.2 ⟨p.2, List.mem_map_of_mem _ hp, he⟩

theorem mem_entriesOf {m : ContasMap} {k : String} {es : List AccEntry} {e : AccEntry}
    (hlk : lookupMap m k = some es) (he : e ∈ es) : e ∈ entriesOf m := by
  unfold lookupMap at hlk
  cases hf : m.find? (fun p => p.1 == k) with
  | none => rw [hf] at hlk; simp [Option.map] at hlk
  | some p =>
    rw [hf] at hlk
    simp [Option.map] at hlk
    exact mem_entriesOf_pair (List.mem_of_find?_eq_some hf) (hlk ▸ he)

theorem mem_lookupEntries {m : ContasMap} {k : String} {e : AccEntry}
    (he : e ∈ lookupEntries m k) : e ∈ entriesOf m := by
  unfold lookupEntries at he
  cases hlk : lookupMap m k with
  | none => rw [hlk] at he; simp at he
  | some es => rw [hlk] at he; exact mem_entriesOf hlk he

theorem lookup_filterIndexMap {m : ContasMap} {P : List String} {k : String}
    {es : List AccEntry} (h : lookupMap (filterIndexMap m P) k = some es) :
    ∃ p ∈ m, p.1 = k ∧ es = filterEntries P p.2 ∧ es ≠ [] := by
  unfold lookupMap at h
  cases hf : (filterIndexMap m P).find? (fun p => p.1 == k) with
  | none => rw [hf] at h; simp [Option.map] at h
  | some q =>
    rw [hf] at h
    simp [Option.map] at h
    have hq := List.mem_of_find?_eq_some hf
    have hkq : q.1 = k := by simpa using List.find?_some hf
    unfold filterIndexMap at hq
    have hq2 := List.mem_filter.1 hq
    rcases List.mem_map.1 hq2.1 with ⟨p, hp, hpe⟩
    refine ⟨p, hp, ?_, ?_, ?_⟩
    · rw [← hkq, ← hpe]
    · rw [← h, ← hpe]
    · rw [← h]
      have hlen : q.2.length > 0 := by simpa using hq2.2
      exact List.ne_nil_of_length_pos hlen

theorem filterEntries_eq_nil {P : List String} {l : List AccEntry}
    (h : ∀ e ∈ l, classifMatches P e = false) : filterEntries P l = [] := by
  unfold filterEntries
  rw [List.filter_eq_nil_iff]
  intro e he
  rw [h e he]
  simp

theorem filterIndexMap_eq_nil {m : ContasMap} {P : List String}
    (h : ∀ e ∈ entriesOf m, classifMatches P e = false) : filterIndexMap m P = [] := by
  unfold filterIndexMap
  rw [List.filter_eq_nil_iff]
  intro q hq
  rcases List.mem_map.1 hq with ⟨p, hp, rfl⟩
  have hfe : filterEntries P p.2 = [] :=
    filterEntries_eq_nil (fun e he => h e (mem_entriesOf_pair hp he))
  simp [hfe]

theorem atoliniFuzzyKeys_none {m : ContasMap} {idx P : List String} (hP : P ≠ [])
    (h : ∀ e ∈ entriesOf m, classifMatches P e = false) :
    atoliniFuzzyKeys m idx P = none := by
  unfold atoliniFuzzyKeys
  rw [if_pos (List.length_pos.2 hP)]
  dsimp only
  have hfil : idx.filter (fun k => (lookupEntries m k).any (classifMatches P)) = [] := by
    rw [List.filter_eq_nil_iff]
    intro k _
    rw [Bool.not_eq_true, List.any_eq_false]
    intro e he
    rw [h e (mem_lookupEntries he)]
    simp
  rw [hfil]
  simp

theorem exactLookup_some {m : ContasMap} {key : String} {P : List String} {c : String}
    (h : exactLookup m key P = some c) :
    ∃ e ∈ entriesOf m, (P ≠ [] → classifMatches P e = true) ∧ c = goTrimStr e.code := by
  unfold exactLookup at h
  cases hlk : lookupMap m key with
  | none => rw [hlk] at h; simp at h
  | some entries =>
    rw [hlk] at h
    dsimp only at h
    split at h
    · cases hpb : pickBest entries P with
      | none => rw [hpb] at h; simp [Option.map] at h
      | some be =>
        rw [hpb] at h
        simp [Option.map] at h
        have hps := pickBest_some hpb
        exact ⟨be, mem_entriesOf hlk hps.1, hps.2, h.symm⟩
    · simp at h

theorem exactLookup_none_of_noMatch {m : ContasMap} {key : String} {P : List String}
    (hP : P ≠ []) (h : ∀ e ∈ entriesOf m, classifMatches P e = false) :
    exactLookup m key P = none := by
  cases hlk : lookupMap m key with
  | none => unfold exactLookup; rw [hlk]
  | some entries =>
    unfold exactLookup
    rw [hlk]
    dsimp only
    split
    · rw [pickBest_none_of_noMatch hP (fun e he => h e (mem_entriesOf hlk he))]
      rfl
    · rfl
theorem fuzzyLookup_some {m : ContasMap} {P : List String} {q c : String}
    (h : fuzzyLookup m P q = some c) : exactLookup m q P = some c := by
  unfold fuzzyLookup at h
  split at h
  · exact h
  · simp at h

theorem buscar_cases (closest : FuzzyOracle) (texto : String) (cmap : ContasMap)
    (idx P : List String) :
    buscarContaAtolini closest texto cmap idx P = "999999" ∨
    ∃ key c, exactLookup cmap key P = some c ∧
      buscarContaAtolini closest texto cmap idx P = c := by
  unfold buscarContaAtolini
  dsimp only
  split
  · left; rfl
  · cases h1 : exactLookup cmap (normalizeText (goTrimStr texto)) P with
    | some c => right; exact ⟨_, c, h1, rfl⟩
    | none =>
      dsimp only
      cases h2 : atoliniFuzzyKeys cmap idx P with
      | none => left; rfl
      | some candidateKeys =>
        dsimp only
        split
        · split
          · cases h3 : exactLookup cmap
                (closest candidateKeys (normalizeText (goTrimStr texto))) P with
            | some c => right; exact ⟨_, c, h3, rfl⟩
            | none => left; rfl
          · left; rfl
        · left; rfl

theorem buscar_noMatch {closest : FuzzyOracle} {texto : String} {cmap : ContasMap}
    {idx P : List String} (hP : P ≠ [])
    (hnm : ∀ e ∈ entriesOf cmap, classifMatches P e = false) :
    buscarContaAtolini closest texto cmap idx P = "999999" := by
  unfold buscarContaAtolini
  dsimp only
  split
  · rfl
  · rw [exactLookup_none_of_noMatch hP hnm, atoliniFuzzyKeys_none hP hnm]

theorem findConta_cases (closest : FuzzyOracle) (texto : String)
    (idx : List String) (cmap : ContasMap) (P : List String) :
    findContaCodigoByDescricao closest texto idx cmap P = "999999" ∨
    ∃ key c, exactLookup cmap key P = some c ∧
      findContaCodigoByDescricao closest texto idx cmap P = c := by
  unfold findContaCodigoByDescricao
  dsimp only
  split
  · left; rfl
  · cases h1 : exactLookup cmap (normalizeText texto) P with
    | some c => right; exact ⟨_, c, h1, rfl⟩
    | none =>
      dsimp only
      cases h1b : (if stripLeadingNumberPref (normalizeText texto) ≠ normalizeText texto then
          exactLookup cmap (stripLeadingNumberPref (normalizeText texto)) P else none) with
      | some c =>
        right
        refine ⟨stripLeadingNumberPref (normalizeText texto), c, ?_, rfl⟩
        split at h1b
        · exact h1b
        · simp at h1b
      | none =>
        dsimp only
        cases h2 : atoliniFuzzyKeys cmap idx P with
        | none => left; rfl
        | some candidateKeys =>
          dsimp only
          split
          · cases h3 : fuzzyLookup cmap P
                (closest candidateKeys (normalizeText texto)) with
            | some c => right; exact ⟨_, c, fuzzyLookup_some h3, rfl⟩
            | none =>
              dsimp only
              split
              · cases h4 : fuzzyLookup cmap P
                    (closest candidateKeys (stripLeadingNumberPref (normalizeText texto))) with
                | some c => right; exact ⟨_, c, fuzzyLookup_some h4, rfl⟩
                | none => left; rfl
              · left; rfl
          · left; rfl

theorem findConta_noMatch {closest : FuzzyOracle} {texto : String}
    {idx : List String} {cmap : ContasMap} {P : List String} (hP : P ≠ [])
    (hnm : ∀ e ∈ entriesOf cmap, classifMatches P e = false) :
    findContaCodigoByDescricao closest texto idx cmap P = "999999" := by
  unfold findContaCodigoByDescricao
  dsimp only
  split
  · rfl
  · simp only [exactLookup_none_of_noMatch hP hnm, atoliniFuzzyKeys_none hP hnm, ite_self]

theorem sicrediExact_some {se : ContasMap} {key suf : String} {r : MatchResult}
    (h : sicrediExact se key suf = some r) :
    ∃ es, lookupMap se key = some es ∧
      ∃ chosen ∈ es, r = ⟨chosen.code, key, chosen.classif, "exata" ++ suf⟩ := by
  unfold sicrediExact at h
  cases hlk : lookupMap se key with
  | none => rw [hlk] at h; simp at h
  | some es =>
    rw [hlk] at h
    dsimp only at h
    cases hs : sortByClassifLenDesc es with
    | nil => rw [hs] at h; simp at h
    | cons chosen t =>
      rw [hs] at h
      simp only [Option.some.injEq] at h
      refine ⟨es, rfl, chosen, ?_, h.symm⟩
      have : chosen ∈ sortByClassifLenDesc es := hs ▸ List.mem_cons_self _ _
      exact mem_sortByClassifLenDesc.1 this

theorem sicrediFuzzy_some {closest : FuzzyOracle} {se : ContasMap}
    {sk : List String} {key suf : String} {r : MatchResult}
    (h : sicrediFuzzy closest se sk key suf = some r) :
    ∃ k es, lookupMap se k = some es ∧
      ∃ chosen ∈ es, r = ⟨chosen.code, k, chosen.classif, "fuzzy" ++ suf⟩ := by
  unfold sicrediFuzzy at h
  split at h
  · dsimp only at h
    split at h
    · cases hlk : lookupMap se (closest sk key) with
      | none => rw [hlk] at h; simp at h
      | some es =>
        rw [hlk] at h
        dsimp only at h
        cases hs : sortByClassifLenDesc es with
        | nil => rw [hs] at h; simp at h
        | cons chosen t =>
          rw [hs] at h
          simp only [Option.some.injEq] at h
          refine ⟨closest sk key, es, hlk, chosen, ?_, h.symm⟩
          have : chosen ∈ sortByClassifLenDesc es := hs ▸ List.mem_cons_self _ _
          exact mem_sortByClassifLenDesc.1 this
    · simp at h
  · simp at h

theorem sicredi_cases (closest : FuzzyOracle) (texto : String) (cmap : ContasMap)
    (allKeys P : List String) (hP : P ≠ []) :
    (matchContaSicredi closest texto cmap allKeys P).code = "999999" ∨
    ∃ k es, lookupMap (filterIndexMap cmap P) k = some es ∧
      ∃ chosen ∈ es, (matchContaSicredi closest texto cmap allKeys P).code = chosen.code := by
  have hPl : P.length > 0 := List.length_pos.2 hP
  unfold matchContaSicredi matchContaSicrediCore
  dsimp only
  simp only [if_pos hPl]
  split
  · left; rfl
  · cases h1 : sicrediExact (filterIndexMap cmap P) (normalizeText texto) "_filtered" with
    | some r =>
      rcases sicrediExact_some h1 with ⟨es, hlk, chosen, hch, hr⟩
      right
      refine ⟨_, es, hlk, chosen, hch, ?_⟩
      dsimp only
      rw [hr]
    | none =>
      dsimp only
      cases h2 : sicrediFuzzy closest (filterIndexMap cmap P)
          (mapKeys (filterIndexMap cmap P)) (normalizeText texto) "_filtered" with
      | some r =>
        rcases sicrediFuzzy_some h2 with ⟨k, es, hlk, chosen, hch, hr⟩
        right
        refine ⟨k, es, hlk, chosen, hch, ?_⟩
        dsimp only
        rw [hr]
      | none => left; rfl

theorem sicredi_noMatch {closest : FuzzyOracle} {texto : String} {cmap : ContasMap}
    {allKeys P : List String} (hP : P ≠ [])
    (hnm : ∀ e ∈ entriesOf cmap, classifMatches P e = false) :
    (matchContaSicredi closest texto cmap allKeys P).code = "999999" ∧
    (normalizeText texto ≠ "" →
      (matchContaSicredi closest texto cmap allKeys P).mtype = "nao_encontrada") := by
  have hPl : P.length > 0 := List.length_pos.2 hP
  have hfim : filterIndexMap cmap P = [] := filterIndexMap_eq_nil hnm
  unfold matchContaSicredi matchContaSicrediCore
  dsimp only
  simp only [if_pos hPl]
  split
  · next hkey => exact ⟨rfl, fun hne => absurd hkey hne⟩
  · rw [hfim]
    have hex : sicrediExact ([] : ContasMap) (normalizeText texto) "_filtered" = none := rfl
    have hfz : sicrediFuzzy closest ([] : ContasMap) (mapKeys ([] : ContasMap))
        (normalizeText texto) "_filtered" = none := rfl
    rw [hex, hfz]
    exact ⟨rfl, fun _ => rfl⟩
theorem lookupMap_singleton {k : String} {es : List AccEntry} :
    lookupMap [(k, es)] k = some es := by
  unfold lookupMap
  simp [List.find?]

theorem exactLookup_pair_longer {k : String} {e1 e2 : AccEntry}
    (hlt : classifLen e2 < classifLen e1) :
    exactLookup [(k, [e1, e2])] k [] = some (goTrimStr e1.code) ∧
    exactLookup [(k, [e2, e1])] k [] = some (goTrimStr e1.code) := by
  constructor
  · unfold exactLookup
    rw [lookupMap_singleton]
    dsimp only
    rw [if_pos (by simp)]
    unfold pickBest
    rw [if_neg (by simp)]
    unfold sortByClassifLenDesc sortByClassifLenDesc sortByClassifLenDesc
    unfold insertByClassifLen insertByClassifLen
    dsimp only
    rw [if_pos hlt]
    rfl
  · unfold exactLookup
    rw [lookupMap_singleton]
    dsimp only
    rw [if_pos (by simp)]
    unfold pickBest
    rw [if_neg (by simp)]
    unfold sortByClassifLenDesc sortByClassifLenDesc sortByClassifLenDesc
    unfold insertByClassifLen insertByClassifLen
    dsimp only
    rw [if_neg (by omega : ¬ classifLen e1 < classifLen e2)]
    rfl

/-- Claim C1: with a non-empty classification-prefix set P, none of the
resolvers (`buscarContaAtolini`, `findContaCodigoByDescricao`,
`matchContaSicredi`) ever returns the code of an account entry whose
classification fails every prefix of P: any non-sentinel result is the
(trimmed) code of a matching entry of the index.  When no entry of the index
matches P at all, all three return the sentinel `"999999"`, the Sicredi
matcher with match type `"nao_encontrada"` whenever the query normalizes to
a non-empty key. -/
theorem claim_C1_scope_safety (closest : FuzzyOracle) (texto : String)
    (cmap : ContasMap) (idx allKeys P : List String) (hP : P ≠ []) :
    (buscarContaAtolini closest texto cmap idx P = "999999" ∨
      ∃ e ∈ entriesOf cmap, classifMatches P e = true ∧
        buscarContaAtolini closest texto cmap idx P = goTrimStr e.code) ∧
    (findContaCodigoByDescricao closest texto idx cmap P = "999999" ∨
      ∃ e ∈ entriesOf cmap, classifMatches P e = true ∧
        findContaCodigoByDescricao closest texto idx cmap P = goTrimStr e.code) ∧
    ((matchContaSicredi closest texto cmap allKeys P).code = "999999" ∨
      ∃ e ∈ entriesOf cmap, classifMatches P e = true ∧
        (matchContaSicredi closest texto cmap allKeys P).code = e.code) ∧
    ((∀ e ∈ entriesOf cmap, classifMatches P e = false) →
      buscarContaAtolini closest texto cmap idx P = "999999" ∧
      findContaCodigoByDescricao closest texto idx cmap P = "999999" ∧
      (matchContaSicredi closest texto cmap allKeys P).code = "999999" ∧
      (normalizeText texto ≠ "" →
        (matchContaSicredi closest texto cmap allKeys P).mtype = "nao_encontrada")) := by
  refine ⟨?_, ?_, ?_, ?_⟩
  · rcases buscar_cases closest texto cmap idx P with h | ⟨key, c, hex, hres⟩
    · left; exact h
    · rcases exactLookup_some hex with ⟨e, hme, hmt, hc⟩
      right; exact ⟨e, hme, hmt hP, by rw [hres, hc]⟩
  · rcases findConta_cases closest texto idx cmap P with h | ⟨key, c, hex, hres⟩
    · left; exact h
    · rcases exactLookup_some hex with ⟨e, hme, hmt, hc⟩
      right; exact ⟨e, hme, hmt hP, by rw [hres, hc]⟩
  · rcases sicredi_cases closest texto cmap allKeys P hP with h | ⟨k, es, hlk, chosen, hch, hc⟩
    · left; exact h
    · rcases lookup_filterIndexMap hlk with ⟨p, hp, _, hesp, _⟩
      right
      have hch2 : chosen ∈ filterEntries P p.2 := hesp ▸ hch
      have hmf := List.mem_filter.1 hch2
      exact ⟨chosen, mem_entriesOf_pair hp hmf.1, hmf.2, hc⟩
  · intro hnm
    exact ⟨buscar_noMatch hP hnm, findConta_noMatch hP hnm,
      (sicredi_noMatch hP hnm).1, (sicredi_noMatch hP hnm).2⟩

/-- Claim C1 witness: with prefix set `["9"]`, which no entry of `cmapAB`
matches, all three resolvers fall back to the sentinel. -/
theorem claim_C1_scope_safety_witness :
    buscarContaAtolini oracleHead "B" cmapAB ["A", "B"] ["9"] = "999999" ∧
    findContaCodigoByDescricao oracleHead "B" ["A", "B"] cmapAB ["9"] = "999999" ∧
    (matchContaSicredi oracleHead "B" cmapAB ["A", "B"] ["9"]).code = "999999" ∧
    (matchContaSicredi oracleHead "B" cmapAB ["A", "B"] ["9"]).mtype = "nao_encontrada" := by
  have h := (claim_C1_scope_safety oracleHead "B" cmapAB ["A", "B"] ["A", "B"] ["9"]
    (by decide)).2.2.2 (by decide)
  exact ⟨h.1, h.2.1, h.2.2.1, h.2.2.2 (by decide)⟩
/-- Claim C5: `pickBest` with an empty prefix filter returns an entry of
maximal classification length among the candidates; in particular, for two
entries sharing a normalized description with classifications
`"2.1.1.01.001"` and `"2.1.1"`, `buscarContaAtolini` with no filter returns
the code of the `"2.1.1.01.001"` entry, whichever way the two entries are
ordered in the index. -/
theorem claim_C5_longest_classification (e1 e2 : AccEntry) (k texto : String)
    (closest : FuzzyOracle) (idx : List String)
    (h1 : e1.classif = "2.1.1.01.001") (h2 : e2.classif = "2.1.1")
    (ht : ¬ goTrimStr texto = "") (hk : normalizeText (goTrimStr texto) = k) :
    (∀ (entries : List AccEntry) (be : AccEntry), pickBest entries [] = some be →
      be ∈ entries ∧ ∀ a ∈ entries, classifLen a ≤ classifLen be) ∧
    buscarContaAtolini closest texto [(k, [e1, e2])] idx [] = goTrimStr e1.code ∧
    buscarContaAtolini closest texto [(k, [e2, e1])] idx [] = goTrimStr e1.code := by
  have hlt : classifLen e2 < classifLen e1 := by
    unfold classifLen
    rw [h1, h2]
    decide
  refine ⟨fun entries be h => pickBest_empty_max h, ?_, ?_⟩
  · unfold buscarContaAtolini
    dsimp only
    rw [if_neg ht, hk, (exactLookup_pair_longer hlt).1]
  · unfold buscarContaAtolini
    dsimp only
    rw [if_neg ht, hk, (exactLookup_pair_longer hlt).2]

/-- Claim C5 witness: the concrete two-entry index of the spec example,
in both storage orders. -/
theorem claim_C5_longest_classification_witness :
    buscarContaAtolini oracleEmpty "X"
      [("X", [⟨"100", "2.1.1.01.001", "X"⟩, ⟨"200", "2.1.1", "X"⟩])] [] [] = "100" ∧
    buscarContaAtolini oracleEmpty "X"
      [("X", [⟨"200", "2.1.1", "X"⟩, ⟨"100", "2.1.1.01.001", "X"⟩])] [] [] = "100" := by
  have h := claim_C5_longest_classification ⟨"100", "2.1.1.01.001", "X"⟩
    ⟨"200", "2.1.1", "X"⟩ "X" "X" oracleEmpty [] rfl rfl (by decide) (by decide)
  exact ⟨by rw [h.2.1]; rfl, by rw [h.2.2]; rfl⟩
theorem sicrediExact_isSome {m : ContasMap} {key suffix : String} {es : List AccEntry}
    (hlk : lookupMap m key = some es) (hne : es ≠ []) :
    ∃ r, sicrediExact m key suffix = some r ∧
      r.matchedKey = key ∧ r.mtype = "exata" ++ suffix := by
  unfold sicrediExact
  rw [hlk]
  dsimp only
  cases hs : sortByClassifLenDesc es with
  | nil => exact absurd (sortByClassifLenDesc_eq_nil.1 hs) hne
  | cons chosen t => exact ⟨_, rfl, rfl, rfl⟩

/-- Claim C4 counterexample: the query `"A"` is present verbatim as a key of
`cmapAB`, yet with prefix filter `["1"]` the Sicredi matcher resolves it
through the fuzzy stage and returns a different key: the classification
filter removes the key `"A"` from the search index before the exact stage
runs. -/
theorem claim_C4_counterexample :
    lookupMap cmapAB (normalizeText "A") ≠ none ∧
    (matchContaSicredi oracleHead "A" cmapAB ["A", "B"] ["1"]).mtype = "fuzzy_filtered" ∧
    (matchContaSicredi oracleHead "A" cmapAB ["A", "B"] ["1"]).matchedKey ≠ normalizeText "A" := by
  decide

/-- Claim C4 amended: when the normalized query is a key of the index *as
searched* — the filtered index when a prefix filter is given, the full index
otherwise — resolution returns via the exact stage: the Sicredi matcher
reports match type `"exata…"` with the normalized query as matched key, and
`buscarContaAtolini` returns the exact-stage result for every fuzzy oracle. -/
theorem claim_C4_amended (closest : FuzzyOracle) (texto : String) (cmap : ContasMap)
    (allKeys P idx : List String) :
    (∀ es : List AccEntry, ¬ normalizeText texto = "" →
      lookupMap (if P.length > 0 then filterIndexMap cmap P else cmap)
        (normalizeText texto) = some es →
      es ≠ [] →
      (matchContaSicredi closest texto cmap allKeys P).matchedKey = normalizeText texto ∧
      (matchContaSicredi closest texto cmap allKeys P).mtype =
        "exata" ++ (if P.length > 0 then "_filtered" else "_all")) ∧
    (∀ c, exactLookup cmap (normalizeText (goTrimStr texto)) P = some c →
      ¬ goTrimStr texto = "" →
      buscarContaAtolini closest texto cmap idx P = c) := by
  constructor
  · intro es hk0 hlk hne
    obtain ⟨r, hr, hrk, hrt⟩ :=
      @sicrediExact_isSome _ _ (if P.length > 0 then "_filtered" else "_all") _ hlk hne
    unfold matchContaSicredi matchContaSicrediCore
    dsimp only
    rw [if_neg hk0, hr]
    exact ⟨hrk, hrt⟩
  · intro c hc ht
    unfold buscarContaAtolini
    dsimp only
    rw [if_neg ht, hc]

/-- Claim C4 amended witness: with no prefix filter the query `"A"` hits the
exact stage of both resolvers on `cmapAB`. -/
theorem claim_C4_amended_witness :
    (matchContaSicredi oracleHead "A" cmapAB ["A", "B"] []).matchedKey = "A" ∧
    (matchContaSicredi oracleHead "A" cmapAB ["A", "B"] []).mtype = "exata_all" ∧
    buscarContaAtolini oracleHead "A" cmapAB ["A", "B"] [] = "1" := by
  have h := claim_C4_amended oracleHead "A" cmapAB ["A", "B"] [] ["A", "B"]
  have ha := h.1 [⟨"1", "2", "A"⟩] (by decide) (by decide) (by decide)
  have hb := h.2 "1" (by decide) (by decide)
  exact ⟨by rw [ha.1]; rfl, by rw [ha.2]; rfl, hb⟩
theorem lookup_of_mem_nodup :
    ∀ {m : ContasMap} {p : String × List AccEntry},
      (mapKeys m).Nodup → p ∈ m → lookupMap m p.1 = some p.2 := by
  intro m
  induction m with
  | nil => intro p _ hp; simp at hp
  | cons q rest ih =>
    intro p hnd hp
    have hnd2 := hnd
    rw [mapKeys, List.map_cons, List.nodup_cons] at hnd2
    rcases List.mem_cons.1 hp with hp | hp
    · subst hp
      unfold lookupMap
      rw [List.find?_cons_of_pos _ (by simp)]
      rfl
    · have hfalse : (q.1 == p.1) = false := by
        simp only [beq_eq_false_iff_ne, ne_eq]
        intro he
        exact hnd2.1 (he ▸ List.mem_map_of_mem (fun r => r.1) hp)
      unfold lookupMap
      rw [List.find?_cons]
      rw [hfalse]
      exact ih (by simpa [mapKeys] using hnd2.2) hp

theorem updateMap_perm {m : ContasMap} {k : String} (hnd : (mapKeys m).Nodup) :
    List.Forall₂ (fun p q => p.1 = q.1 ∧ List.Perm p.2 q.2) m
      (updateMap m k (sortByClassifLenDesc (lookupEntries m k))) := by
  unfold updateMap
  rw [List.forall₂_map_right_iff, List.forall₂_same]
  intro p hp
  by_cases hk : p.1 = k
  · rw [if_pos hk]
    refine ⟨rfl, ?_⟩
    subst hk
    have hlv : lookupEntries m p.1 = p.2 := by
      unfold lookupEntries
      rw [lookup_of_mem_nodup hnd hp]
      rfl
    rw [hlv]
    exact (sortByClassifLenDesc_perm p.2).symm
  · rw [if_neg hk]
    exact ⟨rfl, List.Perm.refl _⟩

theorem forall₂_perm_refl (m : ContasMap) :
    List.Forall₂ (fun p q => p.1 = q.1 ∧ List.Perm p.2 q.2) m m :=
  List.forall₂_same.2 (fun _ _ => ⟨rfl, List.Perm.refl _⟩)

/-- Claim C9 counterexample: one unfiltered Sicredi resolution call mutates
the loaded index.  On `cmapK`, whose key `"K"` stores its two entries with
the shorter classification first, the exact stage sorts the map-backed slice
in place and the post-call index differs from the loaded one. -/
theorem claim_C9_counterexample :
    (matchContaSicrediCore oracleEmpty "K" cmapK ["K"] []).2 ≠ cmapK := by
  decide

/-- Claim C9 amended: resolution never adds, removes or re-keys index
entries — after any Sicredi resolution call the index has the same keys in
the same order and, under each key, a permutation of the loaded entry list
(assuming distinct keys, as map-backed loading guarantees); the order of an
entry list can change, because the unfiltered exact and fuzzy stages sort
the map-backed slice in place.  With a non-empty prefix filter the index is
completely unchanged. -/
theorem claim_C9_index_preserved (closest : FuzzyOracle) (texto : String)
    (cmap : ContasMap) (allKeys P : List String) (hnd : (mapKeys cmap).Nodup) :
    List.Forall₂ (fun p q => p.1 = q.1 ∧ List.Perm p.2 q.2) cmap
      (matchContaSicrediCore closest texto cmap allKeys P).2 ∧
    (P ≠ [] → (matchContaSicrediCore closest texto cmap allKeys P).2 = cmap) := by
  constructor
  · unfold matchContaSicrediCore
    dsimp only
    split
    · exact forall₂_perm_refl cmap
    · split
      · dsimp only
        split
        · exact forall₂_perm_refl cmap
        · exact updateMap_perm hnd
      · split
        · dsimp only
          split
          · exact forall₂_perm_refl cmap
          · exact updateMap_perm hnd
        · exact forall₂_perm_refl cmap
  · intro hP
    have hPl : P.length > 0 := List.length_pos.2 hP
    unfold matchContaSicrediCore
    dsimp only
    split
    · rfl
    · split
      · rfl
      · split
        · rfl
        · rfl

/-- Claim C9 witness: on `cmapK` an unfiltered call keeps keys and entry
multisets, and a filtered call keeps the index on the nose. -/
theorem claim_C9_index_preserved_witness :
    List.Forall₂ (fun p q => p.1 = q.1 ∧ List.Perm p.2 q.2) cmapK
      (matchContaSicrediCore oracleEmpty "K" cmapK ["K"] []).2 ∧
    (matchContaSicrediCore oracleEmpty "K" cmapK ["K"] ["2"]).2 = cmapK := by
  have h1 := claim_C9_index_preserved oracleEmpty "K" cmapK ["K"] [] (by decide)
  have h2 := claim_C9_index_preserved oracleEmpty "K" cmapK ["K"] ["2"] (by decide)
  exact ⟨h1.1, h2.2 (by decide)⟩
/-- Claim C10 counterexample: `loadContasSicredi` performs no numeric check
on the leading code token — the row `["ABC", "1.1", "DESC"]`, whose code
token parses as no number, is still indexed. -/
theorem claim_C10_counterexample :
    goParseFloat "ABC".data = none ∧
    (loadContasSicredi [["ABC", "1.1", "DESC"]]).1 =
      [("DESC", [⟨"ABC", "1.1", "DESC"⟩])] := by
  decide

/-- Claim C10 amended: per-record contracts of the chart-of-accounts
loaders.  Both step functions skip records with fewer than 3 fields and
records whose description normalizes to the empty key.  The Atolini loader
additionally skips an empty or numerically non-parseable code token (after
dropping thousands dots and turning a comma into a decimal point) and
appends the surviving rows under the normalized description, recording
first-seen key order; the Sicredi loader appends every surviving row with
no numeric check on the code token. -/
theorem claim_C10_loader_contracts (st : ContasMap × List String)
    (record : List String) (code classif desc : String)
    (hc : code = goTrimStr (record.getD 0 ""))
    (hcl : classif = goTrimStr (record.getD 1 ""))
    (hd : desc = goTrimStr (record.getD 2 "")) :
    (record.length < 3 →
      sicrediStep st record = st ∧ atoliniStep st record = st) ∧
    (¬ record.length < 3 → normalizeText desc = "" →
      sicrediStep st record = st ∧ atoliniStep st record = st) ∧
    (¬ record.length < 3 → ¬ normalizeText desc = "" →
      sicrediStep st record =
        (appendEntry st.1 (normalizeText desc) ⟨code, classif, desc⟩,
         if st.2.contains (normalizeText desc) then st.2
         else st.2 ++ [normalizeText desc])) ∧
    (¬ record.length < 3 → ¬ desc = "" → ¬ code = "" →
      goParseFloat ((code.data.filter (· ≠ '.')).map
        (fun c => if c = ',' then '.' else c)) = none →
      atoliniStep st record = st) ∧
    (¬ record.length < 3 → ¬ desc = "" → ¬ code = "" → ¬ normalizeText desc = "" →
      (goParseFloat ((code.data.filter (· ≠ '.')).map
        (fun c => if c = ',' then '.' else c))).isSome = true →
      atoliniStep st record =
        (appendEntry st.1 (normalizeText desc) ⟨stripSuffixDotZero code, classif, desc⟩,
         if st.2.contains (normalizeText desc) then st.2
         else st.2 ++ [normalizeText desc])) := by
  subst hc hcl hd
  refine ⟨?_, ?_, ?_, ?_, ?_⟩
  · intro hlen
    constructor
    · unfold sicrediStep
      rw [if_pos hlen]
    · unfold atoliniStep
      rw [if_pos hlen]
  · intro hlen hkey
    constructor
    · unfold sicrediStep
      rw [if_neg hlen]
      dsimp only
      rw [if_pos hkey]
    · unfold atoliniStep
      rw [if_neg hlen]
      dsimp only
      by_cases hdor : goTrimStr (record.getD 2 "") = "" ∨ goTrimStr (record.getD 0 "") = ""
      · rw [if_pos hdor]
      · rw [if_neg hdor]
        by_cases hfp : ((goTrimStr (record.getD 0 "")).data.filter (· ≠ '.')).map
            (fun c => if c = ',' then '.' else c) = []
        · rw [if_pos hfp]
        · rw [if_neg hfp]
          cases hpf : goParseFloat (((goTrimStr (record.getD 0 "")).data.filter (· ≠ '.')).map
              (fun c => if c = ',' then '.' else c)) with
          | none => rfl
          | some f =>
            dsimp only
            rw [if_pos hkey]
  · intro hlen hkey
    unfold sicrediStep
    rw [if_neg hlen]
    dsimp only
    rw [if_neg hkey]
  · intro hlen hdesc hcode hpf
    unfold atoliniStep
    rw [if_neg hlen]
    dsimp only
    rw [if_neg (by tauto :
      ¬ (goTrimStr (record.getD 2 "") = "" ∨ goTrimStr (record.getD 0 "") = ""))]
    by_cases hfp : ((goTrimStr (record.getD 0 "")).data.filter (· ≠ '.')).map
        (fun c => if c = ',' then '.' else c) = []
    · rw [if_pos hfp]
    · rw [if_neg hfp, hpf]
  · intro hlen hdesc hcode hkey hsome
    obtain ⟨f, hpf⟩ := Option.isSome_iff_exists.1 hsome
    unfold atoliniStep
    rw [if_neg hlen]
    dsimp only
    rw [if_neg (by tauto :
      ¬ (goTrimStr (record.getD 2 "") = "" ∨ goTrimStr (record.getD 0 "") = ""))]
    have hfp : ((goTrimStr (record.getD 0 "")).data.filter (· ≠ '.')).map
        (fun c => if c = ',' then '.' else c) ≠ [] := by
      intro h0
      rw [h0, (by decide : goParseFloat ([] : List Char) = none)] at hpf
      exact Option.noConfusion hpf
    rw [if_neg hfp, hpf]
    dsimp only
    rw [if_neg hkey]

/-- Claim C10 witness: the Sicredi step indexes a non-numeric code row, the
Atolini step skips it, and the Atolini step indexes a thousands-formatted
numeric code row. -/
theorem claim_C10_loader_contracts_witness :
    sicrediStep ([], []) ["ABC", "1.1", "DESC"] =
      ([("DESC", [⟨"ABC", "1.1", "DESC"⟩])], ["DESC"]) ∧
    atoliniStep ([], []) ["ABC", "1.1", "DESC"] = ([], []) ∧
    atoliniStep ([], []) ["1.000,5", "1.1", "DESC"] =
      ([("DESC", [⟨"1.000,5", "1.1", "DESC"⟩])], ["DESC"]) := by
  have h1 := claim_C10_loader_contracts ([], []) ["ABC", "1.1", "DESC"]
    "ABC" "1.1" "DESC" rfl rfl rfl
  have h2 := claim_C10_loader_contracts ([], []) ["1.000,5", "1.1", "DESC"]
    "1.000,5" "1.1" "DESC" rfl rfl rfl
  refine ⟨?_, ?_, ?_⟩
  · rw [h1.2.2.1 (by decide) (by decide)]
    rfl
  · exact h1.2.2.2.1 (by decide) (by decide) (by decide) (by decide)
  · rw [h2.2.2.2.2 (by decide) (by decide) (by decide) (by decide) (by decide)]
    rfl
theorem trimTrailing_mem_of_neg {p : Char → Bool} {c : Char} (hc : p c = false) :
    ∀ {l : List Char}, c ∈ l → c ∈ trimTrailing p l := by
  intro l
  induction l with
  | nil => intro h; simp at h
  | cons a rest ih =>
    intro h
    unfold trimTrailing
    dsimp only
    rcases List.mem_cons.1 h with h | h
    · subst h
      rw [if_neg (by simp [hc])]
      exact List.mem_cons_self _ _
    · split
      · next hcase =>
        rw [Bool.and_eq_true, decide_eq_true_eq] at hcase
        exact absurd (hcase.1 ▸ ih h) (List.not_mem_nil c)
      · exact List.mem_cons_of_mem _ (ih h)

theorem dropWhile_mem_of_neg {p : Char → Bool} {c : Char} (hc : p c = false) :
    ∀ {l : List Char}, c ∈ l → c ∈ l.dropWhile p := by
  intro l
  induction l with
  | nil => intro h; simp at h
  | cons a rest ih =>
    intro h
    rw [List.dropWhile_cons]
    rcases List.mem_cons.1 h with h | h
    · subst h
      rw [if_neg (by simp [hc])]
      exact List.mem_cons_self _ _
    · split
      · exact ih h
      · exact List.mem_cons_of_mem _ h

theorem trimBoth_mem_of_neg {p : Char → Bool} {c : Char} (hc : p c = false)
    {l : List Char} (h : c ∈ l) : c ∈ trimBoth p l :=
  trimTrailing_mem_of_neg hc (dropWhile_mem_of_neg hc h)
theorem sanitizeForCSV_ne_empty {s : String} (h : '/' ∈ s.data) :
    sanitizeForCSV s ≠ "" := by
  unfold sanitizeForCSV
  have hne : ¬ s.data = [] := by
    intro h0
    rw [h0] at h
    simp at h
  rw [if_neg hne]
  dsimp only
  have h1 : '/' ∈ trimBoth isGoSpace s.data := trimBoth_mem_of_neg (by decide) h
  have h2 : '/' ∈ (trimBoth isGoSpace s.data).filterMap sanitizeMapChar :=
    List.mem_filterMap.2 ⟨'/', h1, by decide⟩
  have h3 : '/' ∈ trimBoth isGoSpace ((trimBoth isGoSpace s.data).filterMap sanitizeMapChar) :=
    trimBoth_mem_of_neg (by decide) h2
  intro h0
  have h4 := congrArg String.data h0
  simp only at h4
  rw [h4] at h3
  simp at h3

theorem slash_mem_formatDateChars (dt : GoDate) : '/' ∈ formatDateChars dt := by
  unfold formatDateChars
  exact List.mem_append.2 (Or.inr (List.mem_cons_self _ _))

theorem slash_mem_formatGoDate (dt : GoDate) : '/' ∈ (formatGoDate dt).data :=
  slash_mem_formatDateChars dt

theorem matchDate1At_slash : ∀ {l m : List Char}, matchDate1At l = some m → '/' ∈ m := by
  intro l m h
  unfold matchDate1At at h
  split at h
  · split at h
    · injection h with h1
      subst h1
      simp
    · exact absurd h (by simp)
  · exact absurd h (by simp)

theorem findPattern_exists {att : List Char → Option (List Char)} :
    ∀ {l : List Char} {b : Bool} {m : List Char},
      findPattern att l b = some m → ∃ l2, att l2 = some m := by
  intro l
  induction l with
  | nil => intro b m h; simp [findPattern] at h
  | cons c rest ih =>
    intro b m h
    unfold findPattern at h
    split at h
    · cases hatt : att (c :: rest) with
      | some m2 =>
        rw [hatt] at h
        exact ⟨c :: rest, hatt.trans (congrArg some (Option.some.inj h))⟩
      | none =>
        rw [hatt] at h
        exact ih h
    · exact ih h

theorem findSome?_mem {α β : Type} {f : α → Option β} :
    ∀ {l : List α} {b : β}, l.findSome? f = some b → ∃ a ∈ l, f a = some b := by
  intro l
  induction l with
  | nil => intro b h; simp [List.findSome?] at h
  | cons a rest ih =>
    intro b h
    rw [List.findSome?_cons] at h
    cases hfa : f a with
    | some b2 =>
      rw [hfa] at h
      exact ⟨a, List.mem_cons_self _ _, hfa.trans (congrArg some (Option.some.inj h))⟩
    | none =>
      rw [hfa] at h
      obtain ⟨a2, ha2, hb⟩ := ih h
      exact ⟨a2, List.mem_cons_of_mem _ ha2, hb⟩

theorem findDateInCell_slash {clean : List Char} {s : String}
    (h : findDateInCell clean = some s) : '/' ∈ s.data := by
  unfold findDateInCell at h
  cases h1 : findPattern matchDate1At clean false with
  | some m =>
    rw [h1] at h
    dsimp only at h
    obtain ⟨l2, hl2⟩ := findPattern_exists h1
    rw [← Option.some.inj h]
    exact matchDate1At_slash hl2
  | none =>
    rw [h1] at h
    dsimp only at h
    cases h2 : findPattern matchDate2At clean false with
    | some m =>
      rw [h2] at h
      dsimp only at h
      cases h3 : goParseDateISO m with
      | some t =>
        rw [h3] at h
        dsimp only at h
        rw [← Option.some.inj h]
        exact slash_mem_formatGoDate t
      | none =>
        rw [h3] at h
        dsimp only at h
        cases h4 : goParseFloat clean with
        | some f =>
          rw [h4] at h
          dsimp only at h
          split at h
          · rw [← Option.some.inj h]
            exact slash_mem_formatGoDate _
          · exact absurd h (by simp)
        | none =>
          rw [h4] at h
          exact absurd h (by simp)
    | none =>
      rw [h2] at h
      dsimp only at h
      cases h4 : goParseFloat clean with
      | some f =>
        rw [h4] at h
        dsimp only at h
        split at h
        · rw [← Option.some.inj h]
          exact slash_mem_formatGoDate _
        · exact absurd h (by simp)
      | none =>
        rw [h4] at h
        exact absurd h (by simp)

theorem findDateInRow_slash {row : List String} {s : String}
    (h : findDateInRow row = some s) : '/' ∈ s.data := by
  unfold findDateInRow at h
  obtain ⟨c, _, hc⟩ := findSome?_mem h
  dsimp only at hc
  split at hc
  · exact absurd hc (by simp)
  · exact findDateInCell_slash hc

theorem parseDateDayFirst_slash {s d : String}
    (h : parseDateDayFirst s = some d) : '/' ∈ d.data := by
  unfold parseDateDayFirst at h
  dsimp only at h
  split at h
  · exact absurd h (by simp)
  · cases h1 : goParseDateDDMMYYYY (trimBoth isGoSpace s.data) with
    | some t =>
      rw [h1] at h
      dsimp only at h
      rw [← Option.some.inj h]
      exact slash_mem_formatGoDate t
    | none =>
      rw [h1] at h
      dsimp only at h
      split at h
      · next code hlen =>
        rw [← Option.some.inj h]
        split at hlen
        · cases h2 : goParseDateISO ((trimBoth isGoSpace s.data).take 10) with
          | some t =>
            rw [h2] at hlen
            dsimp only at hlen
            rw [← Option.some.inj hlen]
            exact slash_mem_formatGoDate t
          | none =>
            rw [h2] at hlen
            exact absurd hlen (by simp)
        · exact absurd hlen (by simp)
      · cases h3 : goParseFloat (trimBoth isGoSpace s.data) with
        | some f =>
          rw [h3] at h
          dsimp only at h
          split at h
          · rw [← Option.some.inj h]
            exact slash_mem_formatGoDate _
          · exact absurd h (by simp)
        | none =>
          rw [h3] at h
          exact absurd h (by simp)

theorem updateBlockDateIfHeader_slash {row : List String} {d : String}
    (h : updateBlockDateIfHeader row = some d) : '/' ∈ d.data := by
  unfold updateBlockDateIfHeader at h
  split at h
  · exact absurd h (by simp)
  · split at h
    · next d2 heq =>
      obtain ⟨ci, _, hci⟩ := findSome?_mem heq
      rw [← Option.some.inj h]
      exact parseDateDayFirst_slash hci
    · exact findDateInRow_slash h
theorem pagStep_dateOK (closest : FuzzyOracle) (cmap : ContasMap) (idx dP cP : List String)
    (st : PagState) (row : List String)
    (hst : st.blockDate = "" ∨ '/' ∈ st.blockDate.data) :
    ((pagStep closest cmap idx dP cP st row).1.blockDate = "" ∨
      '/' ∈ (pagStep closest cmap idx dP cP st row).1.blockDate.data) ∧
    (∀ r, (pagStep closest cmap idx dP cP st row).2 = some r → r.data ≠ "") := by
  unfold pagStep
  cases hu : updateBlockDateIfHeader row with
  | some d =>
    dsimp only
    refine ⟨Or.inr (updateBlockDateIfHeader_slash hu), ?_⟩
    intro r hr
    exact absurd hr (by simp)
  | none =>
    dsimp only
    split
    · exact ⟨hst, fun r hr => absurd hr (by simp)⟩
    · split
      · exact ⟨hst, fun r hr => absurd hr (by simp)⟩
      · split
        · exact ⟨hst, fun r hr => absurd hr (by simp)⟩
        · next hcond =>
          push_neg at hcond
          have hbd : '/' ∈ st.blockDate.data := hst.resolve_left hcond.2
          split
          · exact ⟨hst, fun r hr => absurd hr (by simp)⟩
          · dsimp only
            refine ⟨hst, ?_⟩
            intro r hr
            have h2 := Option.some.inj hr
            rw [← h2]
            exact sanitizeForCSV_ne_empty hbd
theorem pagRun_no_empty_date (closest : FuzzyOracle) (cmap : ContasMap)
    (idx dP cP : List String) :
    ∀ (rows : List (List String)) (st : PagState),
      st.blockDate = "" ∨ '/' ∈ st.blockDate.data →
      ∀ r ∈ (pagRun closest cmap idx dP cP st rows).2, r.data ≠ "" := by
  intro rows
  induction rows with
  | nil => intro st _ r hr; simp [pagRun] at hr
  | cons row rest ih =>
    intro st hst r hr
    unfold pagRun at hr
    dsimp only at hr
    rcases List.mem_append.1 hr with hr | hr
    · cases hp : (pagStep closest cmap idx dP cP st row).2 with
      | none => rw [hp] at hr; simp at hr
      | some r0 =>
        rw [hp] at hr
        simp only [Option.toList_some, List.mem_singleton] at hr
        subst hr
        exact (pagStep_dateOK closest cmap idx dP cP st row hst).2 r hp
    · exact ih (pagStep closest cmap idx dP cP st row).1
        (pagStep_dateOK closest cmap idx dP cP st row hst).1 r hr

/-- Claim C3 counterexample: the Recebimentos extractor emits a transaction
row whose date field is empty when a transaction row precedes every date
marker — the row is emitted, not dropped, and no backward search recovers a
date. -/
theorem claim_C3_counterexample :
    (processAtoliniRecebimentosRows oracleEmpty [] [] [] [] [["1 - FOO"]]).map
      (fun r => r.data) = [""] := by
  decide

/-- Claim C3 amended: the Pagamentos extractor never emits a row with an
empty date: a transaction row is only emitted inside a historic section
whose block date has been set, and every date the block-date header parser
produces contains a `'/'` character, which survives CSV sanitization. -/
theorem claim_C3_pagamentos_no_empty_date (closest : FuzzyOracle) (cmap : ContasMap)
    (idx dP cP : List String) (rows : List (List String)) :
    ∀ r ∈ processAtoliniPagamentosRows closest cmap idx dP cP rows, r.data ≠ "" := by
  intro r hr
  exact pagRun_no_empty_date closest cmap idx dP cP rows ⟨"", false, [], []⟩
    (Or.inl rfl) r hr

/-- Claim C3 witness: the pagamentos fixture emits exactly one row and its
date is the non-empty header date. -/
theorem claim_C3_pagamentos_no_empty_date_witness :
    pagFixtureRow ∈ processAtoliniPagamentosRows oracleEmpty [] [] [] [] pagFixtureRows ∧
    pagFixtureRow.data ≠ "" := by
  refine ⟨by decide, ?_⟩
  exact claim_C3_pagamentos_no_empty_date oracleEmpty [] [] [] [] pagFixtureRows
    pagFixtureRow (by decide)
theorem montarGo_eq (closest : FuzzyOracle) (cmap : ContasMap) (allKeys P : List String) :
    ∀ (ls : List Lancamento) (D : GoDate) (group : List Lancamento),
      montarGo closest cmap allKeys P ls D group =
        processarGrupoSicredi closest
          (group ++ ls.takeWhile (fun x => x.dataLiquidacao = D)) cmap allKeys P ++
        ((chunkByDate (ls.dropWhile (fun x => x.dataLiquidacao = D))).map
          (fun g => processarGrupoSicredi closest g cmap allKeys P)).flatten := by
  intro ls
  induction ls with
  | nil =>
    intro D group
    simp [montarGo, chunkByDate]
  | cons l ls ih =>
    intro D group
    unfold montarGo
    by_cases hd : l.dataLiquidacao = D
    · rw [if_pos hd, ih, List.takeWhile_cons, List.dropWhile_cons,
        if_pos (by simp [hd]), if_pos (by simp [hd])]
      simp [List.append_assoc]
    · rw [if_neg hd, ih, List.takeWhile_cons, List.dropWhile_cons,
        if_neg (by simp [hd]), if_neg (by simp [hd]), chunkByDate]
      simp [List.append_assoc]

theorem montarOutputSicredi_chunks (closest : FuzzyOracle) (cmap : ContasMap)
    (allKeys P : List String) (ls : List Lancamento) :
    montarOutputSicredi closest ls cmap allKeys P =
      ((chunkByDate ls).map
        (fun g => processarGrupoSicredi closest g cmap allKeys P)).flatten := by
  cases ls with
  | nil => simp [montarOutputSicredi, chunkByDate]
  | cons l rest =>
    unfold montarOutputSicredi
    dsimp only
    rw [montarGo_eq, chunkByDate]
    rw [List.takeWhile_cons, List.dropWhile_cons, if_pos (by simp), if_pos (by simp)]
    simp

/-- Claim C6: for a non-empty settlement-date group whose transactions all
share the date `D`, `processarGrupoSicredi` emits exactly one debit row —
dated one calendar day after `D`, routed to the `"999999"` clearing account,
with the group's summed amount — followed by exactly one credit row per
transaction, each also dated `D` plus one day; and `montarOutputSicredi` is
exactly the concatenation of `processarGrupoSicredi` over the maximal
same-date runs of its input. -/
theorem claim_C6_sicredi_grouping (closest : FuzzyOracle) (cmap : ContasMap)
    (allKeys P : List String) (grupo : List Lancamento) (D : GoDate)
    (ls : List Lancamento) (hne : grupo ≠ [])
    (hD : ∀ l ∈ grupo, l.dataLiquidacao = D) :
    processarGrupoSicredi closest grupo cmap allKeys P =
      ⟨"D", formatGoDate (addOneDay D), "", "999999",
        formatTwoDecimalsComma (somaValores grupo), "TÍTULOS RECEBIDOS NA DATA"⟩ ::
      grupo.map (fun l =>
        ⟨"C", formatGoDate (addOneDay D), l.descricao,
          (matchContaSicredi closest l.descricao cmap allKeys P).code,
          formatTwoDecimalsComma l.valor, l.historico⟩) ∧
    (processarGrupoSicredi closest grupo cmap allKeys P).countP
      (fun r => r.operacao == "D") = 1 ∧
    montarOutputSicredi closest ls cmap allKeys P =
      ((chunkByDate ls).map
        (fun g => processarGrupoSicredi closest g cmap allKeys P)).flatten := by
  have h1 : processarGrupoSicredi closest grupo cmap allKeys P =
      ⟨"D", formatGoDate (addOneDay D), "", "999999",
        formatTwoDecimalsComma (somaValores grupo), "TÍTULOS RECEBIDOS NA DATA"⟩ ::
      grupo.map (fun l =>
        ⟨"C", formatGoDate (addOneDay D), l.descricao,
          (matchContaSicredi closest l.descricao cmap allKeys P).code,
          formatTwoDecimalsComma l.valor, l.historico⟩) := by
    cases grupo with
    | nil => exact absurd rfl hne
    | cons l0 rest =>
      have h0 : l0.dataLiquidacao = D := hD l0 (List.mem_cons_self _ _)
      unfold processarGrupoSicredi
      dsimp only
      rw [h0]
  refine ⟨h1, ?_, montarOutputSicredi_chunks closest cmap allKeys P ls⟩
  rw [h1, List.countP_cons]
  have h2 : (grupo.map (fun l =>
      (⟨"C", formatGoDate (addOneDay D), l.descricao,
        (matchContaSicredi closest l.descricao cmap allKeys P).code,
        formatTwoDecimalsComma l.valor, l.historico⟩ : OutputRow))).countP
      (fun r => r.operacao == "D") = 0 := by
    rw [List.countP_eq_zero]
    intro r hr
    obtain ⟨l, _, hl⟩ := List.mem_map.1 hr
    rw [← hl]
    simp
  rw [h2]
  rfl

/-- Claim C6 witness: the group of amounts 10, 20 and 5 settled on
2026-01-05 yields one debit row of `"35,00"` dated `"06/01/2026"` followed
by three credit rows on the same date. -/
theorem claim_C6_sicredi_grouping_witness :
    processarGrupoSicredi oracleEmpty grupo35 [] [] [] =
      [⟨"D", "06/01/2026", "", "999999", "35,00", "TÍTULOS RECEBIDOS NA DATA"⟩,
       ⟨"C", "06/01/2026", "A", "999999", "10,00", "h1"⟩,
       ⟨"C", "06/01/2026", "B", "999999", "20,00", "h2"⟩,
       ⟨"C", "06/01/2026", "C", "999999", "5,00", "h3"⟩] ∧
    (processarGrupoSicredi oracleEmpty grupo35 [] [] []).countP
      (fun r => r.operacao == "D") = 1 := by
  have h := claim_C6_sicredi_grouping oracleEmpty [] [] [] grupo35 ⟨2026, 1, 5⟩ []
    (by decide) (by decide)
  exact ⟨by rw [h.1]; decide, h.2.1⟩
end AnaliseSped
